import Mathlib

/-!
Verification of the wyag reimplementation (src/libwyag.py) against its
natural-language specification.  Python byte strings are modeled as lists of
byte values, Python str values as lists of Unicode code points, and the
filesystem as an explicit record threaded through the functions that touch it.
External library routines (hashlib.sha1, zlib.compress/decompress, fnmatch)
are modeled as function parameters of the embedded definitions.
-/

deriving instance DecidableEq for Except

namespace Wyag

/-- Python bytes values, as lists of byte values. -/
abbrev Bytes := List Nat

/-- Python str values, as lists of Unicode code points. -/
abbrev PStr := List Nat

/-- Python bytes.find(b, start): index of the first occurrence of byte b at or
after index start, or -1 when there is none. -/
def pyFind (l : Bytes) (b : Nat) (start : Nat) : Int :=
  match (l.drop start).findIdx? (fun c => c == b) with
  | some i => (start : Int) + i
  | none => -1

/-- Python slicing l.get-slice a b (written l[a:b] in the source), with the
clamping and negative-index wrapping rules of Python. -/
def pySliceI (l : Bytes) (a b : Int) : Bytes :=
  let n : Int := l.length
  let na := (if a < 0 then max (n + a) 0 else min a n).toNat
  let nb := (if b < 0 then max (n + b) 0 else min b n).toNat
  (l.drop na).take (nb - na)

/-- Python indexing l.get-at i (written l[i] in the source): negative indices
wrap around; an out-of-range index raises IndexError, modeled as none. -/
def pyIndex (l : Bytes) (i : Int) : Option Nat :=
  let j : Int := if i < 0 then (l.length : Int) + i else i
  if j < 0 then none else l.get? j.toNat

/-! ## KVLM (key-value list with message), src/libwyag.py lines 415-498 -/

/-- A value held in the KVLM dictionary: Python stores either a single bytes
value or a list of bytes values (duplicate keys turn a scalar into a list). -/
inductive KVal where
  | scalar (b : Bytes)
  | listv (bs : List Bytes)
deriving DecidableEq

/-- The KVLM dictionary: a Python dict in insertion order whose keys are bytes
or None; the None key (Option.none here) holds the trailing message. -/
abbrev Kvlm := List (Option Bytes × KVal)

/-- Python assignment dct.set k v (dct[k] = v in the source): overwrite in
place when the key is present, otherwise append a new entry. -/
def dictSet (d : Kvlm) (k : Option Bytes) (v : KVal) : Kvlm :=
  match d with
  | [] => [(k, v)]
  | (k0, v0) :: rest => if k0 = k then (k, v) :: rest else (k0, v0) :: dictSet rest k v

/-- Python lookup dct.get k (dct[k] in the source), none when absent. -/
def dictGet (d : Kvlm) (k : Option Bytes) : Option KVal :=
  match d with
  | [] => none
  | (k0, v0) :: rest => if k0 = k then some v0 else dictGet rest k

/-- The duplicate-key accumulation of kvlm_parse: when the key is present,
append to its list (turning a scalar into a two-element list first);
otherwise insert the value as a scalar at the end. -/
def kvlmInsert (d : Kvlm) (k : Bytes) (v : Bytes) : Kvlm :=
  match d with
  | [] => [(some k, KVal.scalar v)]
  | (k0, v0) :: rest =>
    if k0 = some k then
      match v0 with
      | KVal.listv bs => (k0, KVal.listv (bs ++ [v])) :: rest
      | KVal.scalar b => (k0, KVal.listv [b, v]) :: rest
    else (k0, v0) :: kvlmInsert rest k v

/-- Python value.replace of the two-byte pattern LF SP by LF, the
continuation-line unfolding done by kvlm_parse (left-to-right,
non-overlapping, as bytes.replace does). -/
def unfoldNl : Bytes → Bytes
  | [] => []
  | [c] => [c]
  | c :: d :: rest =>
    if c = 10 ∧ d = 32 then 10 :: unfoldNl rest
    else c :: unfoldNl (d :: rest)

/-- Python v.replace of LF by LF SP, the folding done by kvlm_serialize. -/
def foldNl : Bytes → Bytes
  | [] => []
  | c :: rest => if c = 10 then 10 :: 32 :: foldNl rest else c :: foldNl rest

/-- The inner while loop of kvlm_parse: repeatedly find the next LF after the
current position until the byte following it is not a space; fuel bounds the
iteration, and reading past the end raises IndexError. -/
def kvlmFindEnd (message : Bytes) : Nat → Int → Except String Int
  | 0, _ => Except.error "kvlm_parse loop: fuel exhausted"
  | fuel + 1, e =>
    let e2 := pyFind message 10 (e + 1).toNat
    match pyIndex message (e2 + 1) with
    | none => Except.error "IndexError in kvlm_parse"
    | some c => if c = 32 then kvlmFindEnd message fuel e2 else Except.ok e2

/-- kvlm_parse(message, start, dct): the recursive parser, with fuel bounding
the recursion depth.  The base case stores the message under the None key;
the recursive case reads one key, scans the folded value with the inner loop,
unfolds it, accumulates it in the dictionary and recurses after the line. -/
def kvlmParseGo (message : Bytes) : Nat → Nat → Kvlm → Except String Kvlm
  | 0, _, _ => Except.error "kvlm_parse: fuel exhausted"
  | fuel + 1, start, dct =>
    let nextSpace := pyFind message 32 start
    let nextLine := pyFind message 10 start
    if nextSpace < 0 ∨ nextLine < nextSpace then
      if nextLine = (start : Int) then
        Except.ok (dictSet dct none (KVal.scalar (message.drop (start + 1))))
      else Except.error "AssertionError in kvlm_parse"
    else
      let key := pySliceI message start nextSpace
      match kvlmFindEnd message (message.length + 1) start with
      | Except.error e => Except.error e
      | Except.ok endPos =>
        let value := unfoldNl (pySliceI message (nextSpace + 1) endPos)
        kvlmParseGo message fuel (endPos + 1).toNat (kvlmInsert dct key value)

/-- kvlm_parse(message): the top-level call, starting at index 0 with an empty
dictionary. -/
def kvlmParse (message : Bytes) : Except String Kvlm :=
  kvlmParseGo message (message.length + 2) 0 []

/-- The normalization `if type(val) != list: val = [val]` of kvlm_serialize. -/
def kvalList (v : KVal) : List Bytes :=
  match v with
  | KVal.scalar b => [b]
  | KVal.listv bs => bs

/-- kvlm_serialize(kvlm): emit, for every non-None key in stored order, one
line per value with embedded LFs folded back to LF SP; then a blank line and
the message stored under the None key (a missing None key raises KeyError). -/
def kvlmSerialize (kvlm : Kvlm) : Except String Bytes :=
  let ret := kvlm.foldl
    (fun acc p =>
      match p.1 with
      | none => acc
      | some k => (kvalList p.2).foldl (fun a v => a ++ (k ++ 32 :: (foldNl v ++ [10]))) acc)
    []
  match dictGet kvlm none with
  | some (KVal.scalar m) => Except.ok (ret ++ 10 :: m)
  | some (KVal.listv _) => Except.error "TypeError in kvlm_serialize"
  | none => Except.error "KeyError in kvlm_serialize"

/-! ### Well-formed KVLM payloads -/

/-- One logical header line of a KVLM payload: a key and the folded value body
that stands between the separating space and the terminating LF. -/
structure KvlmLine where
  key : Bytes
  body : Bytes
deriving DecidableEq

/-- A header key is well formed when nonempty and free of SP and LF bytes. -/
def keyOk (k : Bytes) : Prop := k ≠ [] ∧ 32 ∉ k ∧ 10 ∉ k

instance (k : Bytes) : Decidable (keyOk k) := by unfold keyOk; infer_instance

/-- A folded body is well formed when every LF byte in it is immediately
followed by a SP byte (so in particular it does not end with LF). -/
def foldedOk : Bytes → Bool
  | [] => true
  | c :: r =>
    if c = 10 then
      match r with
      | d :: r2 => d == 32 && foldedOk r2
      | [] => false
    else foldedOk r

/-- A well-formed header line: well-formed key and well-formed folded body. -/
def lineOk (h : KvlmLine) : Prop := keyOk h.key ∧ foldedOk h.body = true

instance (h : KvlmLine) : Decidable (lineOk h) := by unfold lineOk; infer_instance

/-- The bytes of one header line: key, SP, folded body, LF. -/
def encodeLine (h : KvlmLine) : Bytes := h.key ++ 32 :: (h.body ++ [10])

/-- The bytes of a whole well-formed KVLM payload: the header lines in order,
a blank line, then the message verbatim. -/
def encodeKvlm (hs : List KvlmLine) (msg : Bytes) : Bytes :=
  (hs.map encodeLine).flatten ++ 10 :: msg

/-- Occurrences of every key are contiguous: after the leading run of the
first key, that key never reappears, recursively. -/
def keysGrouped : List KvlmLine → Bool
  | [] => true
  | h :: t =>
    let rest := t.dropWhile (fun x => x.key == h.key)
    rest.all (fun x => !(x.key == h.key)) && keysGrouped rest
termination_by l => l.length
decreasing_by
  simp only [List.length_cons]
  refine Nat.lt_succ_of_le ?_
  generalize (fun x : KvlmLine => x.key == h.key) = p
  induction t with
  | nil => simp [List.dropWhile]
  | cons a u ih =>
    rw [List.dropWhile_cons]
    by_cases hq : p a = true
    · rw [if_pos hq]
      exact Nat.le_succ_of_le ih
    · rw [if_neg hq]

/-- Folding the parsed pairs of a payload into a dictionary, as the recursion
of kvlm_parse does line by line. -/
def insertAll (d : Kvlm) (ps : List (Bytes × Bytes)) : Kvlm :=
  ps.foldl (fun acc p => kvlmInsert acc p.1 p.2) d

/-- The key-value pairs that parsing a list of header lines accumulates. -/
def pairsOf (hs : List KvlmLine) : List (Bytes × Bytes) :=
  hs.map (fun h => (h.key, unfoldNl h.body))

/-- The dictionary value that accumulating a list of values produces: a scalar
for a single value, a list otherwise. -/
def kvalOf : List Bytes → KVal
  | [v] => KVal.scalar v
  | vs => KVal.listv vs

/-! ### List and index helper lemmas -/

/-! ### Folded-body lemmas -/

/-! ### The inner loop of kvlm_parse on well-formed lines -/

/-! ### Serialization of the parsed dictionary -/

/-- The bytes that kvlm_serialize emits for one dictionary entry: nothing for
the message key, one folded line per value otherwise. -/
def serEntry (p : Option Bytes × KVal) : Bytes :=
  match p.1 with
  | none => []
  | some k => ((kvalList p.2).map (fun v => k ++ 32 :: (foldNl v ++ [10]))).flatten

/-- The effect of one duplicate-key insertion on the stored value. -/
def kvalPush (a : KVal) (v : Bytes) : KVal :=
  match a with
  | KVal.scalar b => KVal.listv [b, v]
  | KVal.listv bs => KVal.listv (bs ++ [v])

/-! ## Tree records, src/libwyag.py lines 596-666 -/

/-- A single tree record (class GitTreeLeaf): mode bytes, path as a Python
str, and the object id as a 40-character lowercase hex str. -/
structure GitTreeLeaf where
  mode : Bytes
  path : PStr
  sha : PStr
deriving DecidableEq

/-- UTF-8 encoding of a single code point. -/
def utf8EncodeChar (c : Nat) : Bytes :=
  if c < 0x80 then [c]
  else if c < 0x800 then [0xC0 + c / 64, 0x80 + c % 64]
  else if c < 0x10000 then [0xE0 + c / 4096, 0x80 + (c / 64) % 64, 0x80 + c % 64]
  else [0xF0 + c / 262144, 0x80 + (c / 4096) % 64, 0x80 + (c / 64) % 64, 0x80 + c % 64]

/-- Python s.encode of a str into UTF-8. -/
def utf8Encode (s : PStr) : Bytes := (s.map utf8EncodeChar).flatten

/-- Python bytes.decode of UTF-8 into code points; ill-formed sequences raise
UnicodeDecodeError (modeled without the overlong and surrogate checks, which
no claim exercises). -/
def utf8Decode : Bytes → Except String PStr
  | [] => Except.ok []
  | c :: rest =>
    if c < 0x80 then (utf8Decode rest).map (fun s => c :: s)
    else if c < 0xC0 then Except.error "UnicodeDecodeError"
    else if c < 0xE0 then
      match rest with
      | c2 :: rest2 =>
        if 0x80 ≤ c2 ∧ c2 < 0xC0 then
          (utf8Decode rest2).map (fun s => ((c - 0xC0) * 64 + (c2 - 0x80)) :: s)
        else Except.error "UnicodeDecodeError"
      | [] => Except.error "UnicodeDecodeError"
    else if c < 0xF0 then
      match rest with
      | c2 :: c3 :: rest3 =>
        if (0x80 ≤ c2 ∧ c2 < 0xC0) ∧ (0x80 ≤ c3 ∧ c3 < 0xC0) then
          (utf8Decode rest3).map
            (fun s => ((c - 0xE0) * 4096 + (c2 - 0x80) * 64 + (c3 - 0x80)) :: s)
        else Except.error "UnicodeDecodeError"
      | _ => Except.error "UnicodeDecodeError"
    else
      match rest with
      | c2 :: c3 :: c4 :: rest4 =>
        if (0x80 ≤ c2 ∧ c2 < 0xC0) ∧ (0x80 ≤ c3 ∧ c3 < 0xC0) ∧ (0x80 ≤ c4 ∧ c4 < 0xC0) then
          (utf8Decode rest4).map
            (fun s => ((c - 0xF0) * 262144 + (c2 - 0x80) * 4096 + (c3 - 0x80) * 64
              + (c4 - 0x80)) :: s)
        else Except.error "UnicodeDecodeError"
      | _ => Except.error "UnicodeDecodeError"

/-- Python int.from_bytes(l, "big"). -/
def bytesToNatBE (l : Bytes) : Nat := l.foldl (fun acc b => acc * 256 + b) 0

/-- One lowercase hexadecimal digit character. -/
def hexDigitChar (n : Nat) : Nat := if n < 10 then 48 + n else 87 + n

/-- Python format(n, "040x"): n as 40 lowercase hex digits, zero padded. -/
def natToHex40 (n : Nat) : PStr :=
  (List.range 40).map (fun i => hexDigitChar (n / 16 ^ (39 - i) % 16))

/-- The value of one hexadecimal digit character, if any. -/
def hexDigitVal (c : Nat) : Option Nat :=
  if 48 ≤ c ∧ c ≤ 57 then some (c - 48)
  else if 97 ≤ c ∧ c ≤ 102 then some (c - 87)
  else if 65 ≤ c ∧ c ≤ 70 then some (c - 55)
  else none

/-- Python int(s, 16): parse a hex string, ValueError when ill-formed. -/
def pyIntHex (s : PStr) : Except String Nat :=
  match s.mapM hexDigitVal with
  | some ds =>
    if s = [] then Except.error "ValueError in int"
    else Except.ok (ds.foldl (fun a d => a * 16 + d) 0)
  | none => Except.error "ValueError in int"

/-- Python n.to_bytes(20, "big"): 20 big-endian bytes, OverflowError when the
value needs more. -/
def natToBytes20 (n : Nat) : Except String Bytes :=
  if n < 2 ^ 160 then Except.ok ((List.range 20).map (fun i => n / 256 ^ (19 - i) % 256))
  else Except.error "OverflowError in to_bytes"

/-- tree_parse_one(raw, start): the mode runs to the first space (asserted 5
or 6 bytes long, 5-byte modes normalized by prepending the two bytes of
"10"), the NUL-terminated path is decoded as UTF-8, and the next 20 binary
bytes are the id, rendered as 40 zero-padded lowercase hex digits. -/
def tree_parse_one (raw : Bytes) (start : Nat) : Except String (Int × GitTreeLeaf) :=
  let x := pyFind raw 32 start
  if x - start = 5 ∨ x - start = 6 then
    let mode := pySliceI raw start x
    let mode := if mode.length = 5 then [49, 48] ++ mode else mode
    let y := pyFind raw 0 x.toNat
    match utf8Decode (pySliceI raw (x + 1) y) with
    | Except.error e => Except.error e
    | Except.ok path =>
      let rawSha := bytesToNatBE (pySliceI raw (y + 1) (y + 21))
      Except.ok (y + 21, ⟨mode, path, natToHex40 rawSha⟩)
  else Except.error "AssertionError in tree_parse_one"

/-- The loop of tree_parse(raw): parse records until the end of the payload;
fuel bounds the iteration. -/
def tree_parse_go (raw : Bytes) : Nat → Int → List GitTreeLeaf → Except String (List GitTreeLeaf)
  | 0, _, _ => Except.error "tree_parse: fuel exhausted"
  | fuel + 1, pos, acc =>
    if pos < (raw.length : Int) then
      match tree_parse_one raw pos.toNat with
      | Except.error e => Except.error e
      | Except.ok (pos2, leaf) => tree_parse_go raw fuel pos2 (acc ++ [leaf])
    else Except.ok acc

/-- tree_parse(raw). -/
def tree_parse (raw : Bytes) : Except String (List GitTreeLeaf) :=
  tree_parse_go raw (raw.length + 1) 0 []

/-- tree_leaf_sort_key(leaf): the path itself for modes starting with the two
bytes of "10", the path with a trailing slash appended for every other mode. -/
def tree_leaf_sort_key (leaf : GitTreeLeaf) : PStr :=
  if ([49, 48] : Bytes).isPrefixOf leaf.mode then leaf.path else leaf.path ++ [47]

/-- Lexicographic strict comparison of Python str values by code point, the
order list.sort uses on str keys. -/
def pstrLt : PStr → PStr → Bool
  | [], [] => false
  | [], _ :: _ => true
  | _ :: _, [] => false
  | a :: s, b :: t => if a < b then true else if b < a then false else pstrLt s t

/-- Stable insertion into a sorted list: the new element goes before the
first element whose key is strictly greater. -/
def sortedInsert (key : GitTreeLeaf → PStr) (x : GitTreeLeaf) :
    List GitTreeLeaf → List GitTreeLeaf
  | [] => [x]
  | y :: rest =>
    if pstrLt (key y) (key x) then y :: sortedInsert key x rest else x :: y :: rest

/-- Python list.sort(key=...): a stable ascending sort by key. -/
def pySort (key : GitTreeLeaf → PStr) : List GitTreeLeaf → List GitTreeLeaf
  | [] => []
  | x :: rest => sortedInsert key x (pySort key rest)

/-- The loop body of tree_serialize: emit mode, space, UTF-8 path, NUL, then
run the accumulator line of the source, which loads the local variable sha
before its first assignment (an UnboundLocalError on the first entry) and
keeps adding each entry id into the same accumulator afterwards. -/
def tree_serialize_go (shaAcc : Option Nat) (ret : Bytes) :
    List GitTreeLeaf → Except String Bytes
  | [] => Except.ok ret
  | i :: rest =>
    let ret2 := ret ++ i.mode ++ [32] ++ utf8Encode i.path ++ [0]
    match shaAcc with
    | none => Except.error "UnboundLocalError in tree_serialize"
    | some sha =>
      match pyIntHex i.sha with
      | Except.error e => Except.error e
      | Except.ok v =>
        match natToBytes20 (sha + v) with
        | Except.error e => Except.error e
        | Except.ok b20 => tree_serialize_go (some (sha + v)) (ret2 ++ b20) rest

/-- tree_serialize(obj): sort the entries by tree_leaf_sort_key and emit
them; the local variable sha starts unbound. -/
def tree_serialize (obj : List GitTreeLeaf) : Except String Bytes :=
  tree_serialize_go none [] (pySort tree_leaf_sort_key obj)

/-! ## Filesystem model and repository paths -/

/-- The filesystem as the embedded code observes it: regular files with
their raw contents, and the set of existing directories, keyed by path
strings. -/
structure FS where
  files : List (PStr × Bytes)
  dirs : List PStr
deriving DecidableEq

/-- The contents of the regular file at a path, if one exists. -/
def fsLookup (fs : FS) (p : PStr) : Option Bytes :=
  (fs.files.find? (fun q => q.1 == p)).map Prod.snd

/-- os.path.isfile. -/
def isfile (fs : FS) (p : PStr) : Bool := (fsLookup fs p).isSome

/-- os.path.isdir. -/
def isdir (fs : FS) (p : PStr) : Bool := fs.dirs.contains p

/-- os.path.exists. -/
def pathExists (fs : FS) (p : PStr) : Bool := isfile fs p || isdir fs p

/-- os.path.join for one component: the second path when absolute, else a
slash-joined concatenation. -/
def pyJoin (a b : PStr) : PStr :=
  if b.head? = some 47 then b
  else if a = [] ∨ a.getLast? = some 47 then a ++ b
  else a ++ 47 :: b

/-- os.path.join over a list of components. -/
def pyJoinAll (a : PStr) (ps : List PStr) : PStr := ps.foldl pyJoin a

/-- class GitRepository: the worktree and the gitdir below it. -/
structure GitRepository where
  worktree : PStr
  gitdir : PStr
deriving DecidableEq

/-- repo_path(repo, *path): a path under the gitdir. -/
def repo_path (repo : GitRepository) (path : List PStr) : PStr :=
  pyJoinAll repo.gitdir path

/-- The directory prefixes os.makedirs creates for a path: every prefix cut
at a slash, then the full path, shortest first. -/
def pathAncestors (p : PStr) : List PStr :=
  ((List.range p.length).filterMap
    (fun i => if p.get? i = some 47 then some (p.take i) else none)) ++ [p]

/-- The creation loop of os.makedirs over the ancestor list: existing
directories are kept, a file in the way raises, anything else is created. -/
def mkdirsList (fs : FS) : List PStr → Except String FS
  | [] => Except.ok fs
  | q :: qs =>
    if isdir fs q then mkdirsList fs qs
    else if isfile fs q then Except.error "NotADirectoryError in makedirs"
    else mkdirsList { fs with dirs := fs.dirs ++ [q] } qs

/-- os.makedirs(p). -/
def makedirs (fs : FS) (p : PStr) : Except String FS := mkdirsList fs (pathAncestors p)

/-- repo_dir(repo, *path) with mkdir=False: the directory path when it
exists, None when absent, an exception when the path is not a directory. -/
def repo_dir_ro (repo : GitRepository) (fs : FS) (path : List PStr) :
    Except String (Option PStr) :=
  let p := repo_path repo path
  if pathExists fs p then
    if isdir fs p then Except.ok (some p) else Except.error "Not a directory"
  else Except.ok none

/-- repo_dir(repo, *path) with mkdir=True: as above, but create the
directory (and its ancestors) when absent. -/
def repo_dir_mk (repo : GitRepository) (fs : FS) (path : List PStr) :
    Except String (Option PStr × FS) :=
  let p := repo_path repo path
  if pathExists fs p then
    if isdir fs p then Except.ok (some p, fs) else Except.error "Not a directory"
  else (makedirs fs p).map (fun fs2 => (some p, fs2))

/-- repo_file(repo, *path) with mkdir=False: the file path when the parent
directory exists, None when repo_dir returned None. -/
def repo_file_ro (repo : GitRepository) (fs : FS) (path : List PStr) :
    Except String (Option PStr) :=
  match repo_dir_ro repo fs path.dropLast with
  | Except.error e => Except.error e
  | Except.ok (some _) => Except.ok (some (repo_path repo path))
  | Except.ok none => Except.ok none

/-- repo_file(repo, *path) with mkdir=True. -/
def repo_file_mk (repo : GitRepository) (fs : FS) (path : List PStr) :
    Except String (Option PStr × FS) :=
  match repo_dir_mk repo fs path.dropLast with
  | Except.error e => Except.error e
  | Except.ok (some _, fs2) => Except.ok (some (repo_path repo path), fs2)
  | Except.ok (none, fs2) => Except.ok (none, fs2)

/-! ## The object model and store, src/libwyag.py lines 202-381 -/

/-- The four typed variants GitBlob, GitCommit, GitTag, GitTree. -/
inductive GitObject where
  | blob (blobdata : Bytes)
  | commit (kvlm : Kvlm)
  | tag (kvlm : Kvlm)
  | tree (items : List GitTreeLeaf)
deriving DecidableEq

/-- The fmt tag bytes of each variant. -/
def objFmt : GitObject → Bytes
  | GitObject.blob _ => [98, 108, 111, 98]
  | GitObject.commit _ => [99, 111, 109, 109, 105, 116]
  | GitObject.tag _ => [116, 97, 103]
  | GitObject.tree _ => [116, 114, 101, 101]

/-- The per-variant serialize methods. -/
def objSerialize : GitObject → Except String Bytes
  | GitObject.blob d => Except.ok d
  | GitObject.commit kv => kvlmSerialize kv
  | GitObject.tag kv => kvlmSerialize kv
  | GitObject.tree items => tree_serialize items

/-- Python str(n).encode() for a natural number: its ASCII decimal digits. -/
def natToDecimal (n : Nat) : Bytes := (Nat.toDigits 10 n).map Char.toNat

/-- The uncompressed object envelope: type tag, space, ASCII-decimal payload
length, NUL, payload. -/
def envelope (fmt : Bytes) (data : Bytes) : Bytes :=
  fmt ++ [32] ++ natToDecimal data.length ++ [0] ++ data

/-- The bytes of the literal "objects" path component. -/
def objectsDir : PStr := [111, 98, 106, 101, 99, 116, 115]

/-- object_write(obj, repo): serialize the variant, build the envelope, hash
it (hashHex stands for hashlib.sha1(..).hexdigest()), and when a repository
is given create the sharded directory and write the compressed envelope
unless the file already exists.  Returns the id and the filesystem. -/
def object_write (hashHex : Bytes → PStr) (compress : Bytes → Bytes)
    (obj : GitObject) (repo : Option GitRepository) (fs : FS) :
    Except String (PStr × FS) :=
  match objSerialize obj with
  | Except.error e => Except.error e
  | Except.ok data =>
    let result := envelope (objFmt obj) data
    let sha := hashHex result
    match repo with
    | none => Except.ok (sha, fs)
    | some repo =>
      match repo_file_mk repo fs [objectsDir, sha.take 2, sha.drop 2] with
      | Except.error e => Except.error e
      | Except.ok (none, _) => Except.error "TypeError"
      | Except.ok (some path, fs2) =>
        if pathExists fs2 path then Except.ok (sha, fs2)
        else Except.ok (sha, ⟨fs2.files ++ [(path, compress result)], fs2.dirs⟩)

/-! ## object_read, src/libwyag.py lines 230-272 -/

/-- Python bytes.find with a possibly negative start index (which wraps from
the end, clamped at zero). -/
def pyFindI (l : Bytes) (b : Nat) (start : Int) : Int :=
  pyFind l b (if start < 0 then (max ((l.length : Int) + start) 0).toNat else start.toNat)

/-- Python str.strip() restricted to the space character, the only
whitespace byte the envelope size field can contain. -/
def pyStripSpace (s : PStr) : PStr :=
  ((s.dropWhile (fun c => c == 32)).reverse.dropWhile (fun c => c == 32)).reverse

/-- Python bytes.decode("ascii"): the identity on bytes below 128, otherwise
UnicodeDecodeError. -/
def asciiDecode (b : Bytes) : Except String PStr :=
  if b.all (fun c => decide (c < 128)) then Except.ok b
  else Except.error "UnicodeDecodeError"

/-- Python int(s) on a decimal string with optional surrounding spaces. -/
def pyIntDec (s : PStr) : Except String Nat :=
  let t := pyStripSpace s
  if t ≠ [] ∧ ∀ c ∈ t, 48 ≤ c ∧ c ≤ 57 then
    Except.ok (t.foldl (fun a c => a * 10 + (c - 48)) 0)
  else Except.error "ValueError in int"

/-- The numeric value of a string of ASCII decimal digits. -/
def decimalVal (s : PStr) : Nat := s.foldl (fun a c => a * 10 + (c - 48)) 0

/-- object_read(repo, sha): None when the loose file is absent (with only a
printed warning); otherwise decompress, split the envelope at the first
space and the following NUL, parse and check the declared length, and
dispatch on the type tag, constructing the variant by running its
deserializer on the payload. -/
def object_read (decompress : Bytes → Bytes) (repo : GitRepository) (fs : FS)
    (sha : PStr) : Except String (Option GitObject) :=
  match repo_file_ro repo fs [objectsDir, sha.take 2, sha.drop 2] with
  | Except.error e => Except.error e
  | Except.ok none => Except.ok none
  | Except.ok (some path) =>
    match fsLookup fs path with
    | none => Except.ok none
    | some contents =>
      let raw := decompress contents
      let x := pyFind raw 32 0
      let fmt := pySliceI raw 0 x
      let y := pyFindI raw 0 x
      match asciiDecode (pySliceI raw x y) with
      | Except.error e => Except.error e
      | Except.ok sizeStr =>
        match pyIntDec sizeStr with
        | Except.error e => Except.error e
        | Except.ok size =>
          if (size : Int) ≠ (raw.length : Int) - y - 1 then
            Except.error "Malformed object: bad length"
          else if fmt = [99, 111, 109, 109, 105, 116] then
            (kvlmParse (pySliceI raw (y + 1) raw.length)).map
              (fun kv => some (GitObject.commit kv))
          else if fmt = [116, 114, 101, 101] then
            (tree_parse (pySliceI raw (y + 1) raw.length)).map
              (fun items => some (GitObject.tree items))
          else if fmt = [116, 97, 103] then
            (kvlmParse (pySliceI raw (y + 1) raw.length)).map
              (fun kv => some (GitObject.tag kv))
          else if fmt = [98, 108, 111, 98] then
            Except.ok (some (GitObject.blob (pySliceI raw (y + 1) raw.length)))
          else Except.error "Unknown type for object"

/-! ## The staging area and the index file, src/libwyag.py lines 1119-1261 -/

/-- class GitIndexEntry: one staged file with its cached stat metadata. -/
structure GitIndexEntry where
  ctime : Nat × Nat
  mtime : Nat × Nat
  dev : Nat
  ino : Nat
  mode_type : Nat
  mode_perms : Nat
  uid : Nat
  gid : Nat
  fsize : Nat
  sha : PStr
  flag_assume_valid : Bool
  flag_stage : Nat
  name : PStr
deriving DecidableEq

/-- class GitIndex: the version number and the entry list. -/
structure GitIndex where
  version : Nat
  entries : List GitIndexEntry
deriving DecidableEq

/-- The entry loop of index_read over content = raw drop 12: each iteration
reads the 62 fixed bytes, the name and the padding; asserts raise.  The
padding line idx = 8 * ceil of idx over 8 is computed here in exact integer
arithmetic, which agrees with the source float for every length a file can
have. -/
def index_read_entries (content : Bytes) : Nat → Int → List GitIndexEntry →
    Except String (List GitIndexEntry)
  | 0, _, acc => Except.ok acc
  | n + 1, idx, acc =>
    let ctime_s := bytesToNatBE (pySliceI content idx (idx + 4))
    let ctime_ns := bytesToNatBE (pySliceI content (idx + 4) (idx + 8))
    let mtime_s := bytesToNatBE (pySliceI content (idx + 8) (idx + 12))
    let mtime_ns := bytesToNatBE (pySliceI content (idx + 12) (idx + 16))
    let dev := bytesToNatBE (pySliceI content (idx + 16) (idx + 20))
    let ino := bytesToNatBE (pySliceI content (idx + 20) (idx + 24))
    let unused := bytesToNatBE (pySliceI content (idx + 24) (idx + 26))
    if unused ≠ 0 then Except.error "AssertionError in index_read"
    else
      let mode := bytesToNatBE (pySliceI content (idx + 26) (idx + 28))
      let mode_type := mode / 4096
      if mode_type ≠ 8 ∧ mode_type ≠ 10 ∧ mode_type ≠ 14 then
        Except.error "AssertionError in index_read"
      else
        let mode_perms := mode % 512
        let uid := bytesToNatBE (pySliceI content (idx + 28) (idx + 32))
        let gid := bytesToNatBE (pySliceI content (idx + 32) (idx + 36))
        let fsize := bytesToNatBE (pySliceI content (idx + 36) (idx + 40))
        let sha := natToHex40 (bytesToNatBE (pySliceI content (idx + 40) (idx + 60)))
        let flags := bytesToNatBE (pySliceI content (idx + 60) (idx + 62))
        let flag_assume_valid := flags / 32768 % 2 = 1
        let flag_extended := flags / 16384 % 2 = 1
        if flag_extended then Except.error "AssertionError in index_read"
        else
          let flag_stage := flags % 16384 / 4096 * 4096
          let name_length := flags % 4096
          let idx2 := idx + 62
          let step : Except String (Bytes × Int) :=
            if name_length < 4095 then
              match pyIndex content (idx2 + name_length) with
              | none => Except.error "IndexError in index_read"
              | some b =>
                if b ≠ 0 then Except.error "AssertionError in index_read"
                else Except.ok (pySliceI content idx2 (idx2 + name_length),
                  idx2 + name_length + 1)
            else
              let null_idx := pyFind content 0 (idx2 + 4095).toNat
              Except.ok (pySliceI content idx2 null_idx, null_idx + 1)
          match step with
          | Except.error e => Except.error e
          | Except.ok (raw_name, idx3) =>
            match utf8Decode raw_name with
            | Except.error e => Except.error e
            | Except.ok name =>
              let idx4 := 8 * ((idx3 + 7) / 8)
              index_read_entries content n idx4
                (acc ++ [⟨(ctime_s, ctime_ns), (mtime_s, mtime_ns), dev, ino,
                  mode_type, mode_perms, uid, gid, fsize, sha,
                  flag_assume_valid, flag_stage, name⟩])

/-- The path component "index". -/
def indexName : PStr := [105, 110, 100, 101, 120]

/-- index_read(repo): locate the index file, return an empty version-2 index
when it does not exist, otherwise check the 12-byte DIRC header and parse
the declared number of entries. -/
def index_read (repo : GitRepository) (fs : FS) : Except String GitIndex :=
  match repo_file_ro repo fs [indexName] with
  | Except.error e => Except.error e
  | Except.ok none => Except.error "TypeError in os.path.exists"
  | Except.ok (some index_file) =>
    if pathExists fs index_file = false then Except.ok ⟨2, []⟩
    else
      match fsLookup fs index_file with
      | none => Except.error "IsADirectoryError in open"
      | some raw =>
        let header := pySliceI raw 0 12
        let signature := pySliceI header 0 4
        if signature ≠ [68, 73, 82, 67] then Except.error "AssertionError in index_read"
        else
          let version := bytesToNatBE (pySliceI header 4 8)
          if version ≠ 2 then Except.error "wyag only supports index file version 2"
          else
            let count := bytesToNatBE (pySliceI header 8 12)
            (index_read_entries (raw.drop 12) count 0 []).map
              (fun entries => GitIndex.mk version entries)

/-! ## Status, index against worktree, src/libwyag.py lines 1523-1560 -/

/-- The os.stat fields the status comparison reads. -/
structure PyStat where
  st_ctime_ns : Nat
  st_mtime_ns : Nat
deriving DecidableEq

/-- The object_hash call status makes: wrap the file data in a GitBlob and
hand it to object_write with repo=None. -/
def object_hash_blob (hashHex : Bytes → PStr) (compress : Bytes → Bytes)
    (data : Bytes) (fs : FS) : Except String (PStr × FS) :=
  object_write hashHex compress (GitObject.blob data) none fs

/-- The per-entry branch of cmd_status_index_worktree for an entry whose
worktree file exists: recover the index nanosecond timestamps, compare them
with the stat values, and only on a mismatch open the file, hash it as a
blob and print the modified line when the hashes differ.  Returns whether
the modified line is printed for this entry. -/
def status_entry_modified (hashHex : Bytes → PStr) (compress : Bytes → Bytes)
    (stat : PyStat) (data : Bytes) (fs : FS) (entry : GitIndexEntry) :
    Except String Bool :=
  let ctime_ns := entry.ctime.1 * 10 ^ 9 + entry.ctime.2
  let mtime_ns := entry.mtime.1 * 10 ^ 9 + entry.mtime.2
  if stat.st_ctime_ns ≠ ctime_ns ∨ stat.st_mtime_ns ≠ mtime_ns then
    match object_hash_blob hashHex compress data fs with
    | Except.error e => Except.error e
    | Except.ok (new_sha, _) =>
      let same := entry.sha == new_sha
      Except.ok (!same)
  else Except.ok false

/-! ## References and name resolution, src/libwyag.py lines 847-862 and 996-1032 -/

/-- Python str.strip removable characters: ASCII whitespace. -/
def isSpaceChar (c : Nat) : Bool :=
  c = 32 || c = 9 || c = 10 || c = 13 || c = 11 || c = 12

/-- Python name.strip(): whitespace removed from both ends. -/
def pyStrip (s : PStr) : PStr :=
  ((s.dropWhile isSpaceChar).reverse.dropWhile isSpaceChar).reverse

/-- Python name.lower() on the ASCII range. -/
def pyLower (s : PStr) : PStr :=
  s.map (fun c => if 65 ≤ c ∧ c ≤ 90 then c + 32 else c)

/-- One character of the hashRE class 0-9A-Fa-f. -/
def isHexChar (c : Nat) : Bool :=
  (48 ≤ c && c ≤ 57) || (65 ≤ c && c ≤ 70) || (97 ≤ c && c ≤ 102)

/-- hashRE.match(name) for the anchored pattern of 4 to 40 hex characters. -/
def hashREMatch (name : PStr) : Bool :=
  (4 ≤ name.length && name.length ≤ 40) && name.all isHexChar

/-- The name under a directory that a filesystem path denotes, when it is a
direct child: the remainder after the directory and a slash, provided it is
nonempty and contains no further slash. -/
def childName (p q : PStr) : Option PStr :=
  if (p ++ [47]).isPrefixOf q then
    let n := q.drop (p.length + 1)
    if n ≠ [] ∧ ¬ n.contains 47 then some n else none
  else none

/-- os.listdir(p) over the filesystem model: the direct children among the
regular files and the directories. -/
def listdir (fs : FS) (p : PStr) : List PStr :=
  (fs.files.map Prod.fst ++ fs.dirs).filterMap (childName p)

/-- ref_resolve(repo, ref): read the ref file, drop the final newline,
follow an indirect "ref: " target recursively, otherwise return the data;
a missing ref file yields None.  Fuel bounds the recursion. -/
def ref_resolve (repo : GitRepository) (fs : FS) : Nat → PStr → Except String (Option PStr)
  | 0, _ => Except.error "RecursionError in ref_resolve"
  | fuel + 1, ref =>
    match repo_file_ro repo fs [ref] with
    | Except.error e => Except.error e
    | Except.ok none => Except.error "TypeError in os.path.isfile"
    | Except.ok (some path) =>
      match fsLookup fs path with
      | none => Except.ok none
      | some raw =>
        match utf8Decode raw with
        | Except.error e => Except.error e
        | Except.ok content =>
          let data := content.dropLast
          if [114, 101, 102, 58, 32].isPrefixOf data then
            ref_resolve repo fs fuel (data.drop 5)
          else Except.ok (some data)

/-- object_resolve(repo, name): None for a blank name, the resolved HEAD for
the literal name HEAD, otherwise the candidate list built from the loose
object store (for a 4-40 hex name, every file of objects/<first-two>/ whose
name starts with the remaining characters) and the tag, branch and remote
refs of that name. -/
def object_resolve (repo : GitRepository) (fs : FS) (fuel : Nat) (name : PStr) :
    Except String (Option (List (Option PStr))) :=
  if pyStrip name = [] then Except.ok none
  else if name = [72, 69, 65, 68] then
    match ref_resolve repo fs fuel [72, 69, 65, 68] with
    | Except.error e => Except.error e
    | Except.ok r => Except.ok (some [r])
  else
    let hashCands : Except String (List (Option PStr)) :=
      if hashREMatch name then
        let nameL := pyLower name
        let pre2 := pySliceI nameL 0 2
        match repo_dir_ro repo fs [objectsDir, pre2] with
        | Except.error e => Except.error e
        | Except.ok none => Except.ok []
        | Except.ok (some path) =>
          if path ≠ [] then
            let rem := nameL.drop 2
            Except.ok (((listdir fs path).filter (fun f => rem.isPrefixOf f)).map
              (fun f => some (pre2 ++ f)))
          else Except.ok []
      else Except.ok []
    match hashCands with
    | Except.error e => Except.error e
    | Except.ok cands =>
      match ref_resolve repo fs fuel
          ([114, 101, 102, 115, 47, 116, 97, 103, 115, 47] ++ name) with
      | Except.error e => Except.error e
      | Except.ok as_tag =>
        let cands2 := match as_tag with
          | some t => if t ≠ [] then cands ++ [some t] else cands
          | none => cands
        match ref_resolve repo fs fuel
            ([114, 101, 102, 115, 47, 104, 101, 97, 100, 115, 47] ++ name) with
        | Except.error e => Except.error e
        | Except.ok as_branch =>
          let cands3 := match as_branch with
            | some t => if t ≠ [] then cands2 ++ [some t] else cands2
            | none => cands2
          match ref_resolve repo fs fuel
              ([114, 101, 102, 115, 47, 114, 101, 109, 111, 116, 101, 115, 47] ++ name) with
          | Except.error e => Except.error e
          | Except.ok as_remote =>
            let cands4 := match as_remote with
              | some t => if t ≠ [] then cands3 ++ [some t] else cands3
              | none => cands3
            Except.ok (some cands4)

/-! ## Ignore rules, src/libwyag.py lines 1346-1438 -/

/-- One rule list: fnmatch patterns each with the keep/ignore flag. -/
abbrev IgnoreRules := List (PStr × Bool)

/-- class GitIgnore: the absolute rule lists and the dict of scoped rule
lists keyed by directory (the source field scoped, a Lean keyword, is
spelled scopedRules here). -/
structure GitIgnore where
  absolute : List IgnoreRules
  scopedRules : List (PStr × IgnoreRules)

/-- Python dict lookup on the scoped map: the rule list stored under a key. -/
def dictFind (d : List (PStr × IgnoreRules)) (k : PStr) : Option IgnoreRules :=
  (d.find? (fun q => q.1 == k)).map Prod.snd

/-- os.path.isabs for POSIX paths: a leading slash. -/
def pyIsAbs (p : PStr) : Bool := p.head? == some 47

/-- os.path.dirname for POSIX paths: the part before the last slash, with
trailing slashes removed unless the result is all slashes. -/
def pyDirname (p : PStr) : PStr :=
  let head := (p.reverse.dropWhile (fun c => !(c == 47))).reverse
  if head ≠ [] ∧ ¬ (head.all (fun c => c == 47)) then
    (head.reverse.dropWhile (fun c => c == 47)).reverse
  else head

/-- match_paths(rules, path): fold over the rules keeping the flag of every
rule whose pattern fnmatches the path, so the last match wins; fnm stands
for fnmatch. -/
def match_paths (fnm : PStr → PStr → Bool) (rules : IgnoreRules) (path : PStr) :
    Option Bool :=
  rules.foldl (fun result r => if fnm path r.1 then some r.2 else result) none

/-- The while loop of check_ignore_scoped: consult the scope of the current
parent directory, return its verdict when a rule matched, stop after the
empty parent, otherwise climb to the next parent.  Fuel bounds the loop. -/
def check_ignore_scoped_go (fnm : PStr → PStr → Bool)
    (rules : List (PStr × IgnoreRules)) (path : PStr) :
    Nat → PStr → Except String (Option Bool)
  | 0, _ => Except.error "fuel exhausted in check_ignore_scoped"
  | fuel + 1, parent =>
    match (dictFind rules parent).bind (fun rs => match_paths fnm rs path) with
    | some result => Except.ok (some result)
    | none =>
      if parent = [] then Except.ok none
      else check_ignore_scoped_go fnm rules path fuel (pyDirname parent)

/-- check_ignore_scoped(rules, path): the walk starts at the dirname of the
path. -/
def check_ignore_scoped (fnm : PStr → PStr → Bool)
    (rules : List (PStr × IgnoreRules)) (fuel : Nat) (path : PStr) :
    Except String (Option Bool) :=
  check_ignore_scoped_go fnm rules path fuel (pyDirname path)

/-- check_ignore_absolute(rules, path): first rule list with a verdict wins,
False when none has one. -/
def check_ignore_absolute (fnm : PStr → PStr → Bool) :
    List IgnoreRules → PStr → Bool
  | [], _ => false
  | rs :: rest, path =>
    match match_paths fnm rs path with
    | some result => result
    | none => check_ignore_absolute fnm rest path

/-- check_ignore(rules, path): absolute paths raise; scoped rules are
consulted first and their verdict is final, otherwise the absolute rules
decide. -/
def check_ignore (fnm : PStr → PStr → Bool) (rules : GitIgnore) (fuel : Nat)
    (path : PStr) : Except String Bool :=
  if pyIsAbs path then
    Except.error "This function requires a path to be relative to the repositorys root"
  else
    match check_ignore_scoped fnm rules.scopedRules fuel path with
    | Except.error e => Except.error e
    | Except.ok (some result) => Except.ok result
    | Except.ok none => Except.ok (check_ignore_absolute fnm rules.absolute path)

/-- Spec-side wording of Match: the flag of the last matching rule of the
ordered list, or none. -/
def specMatch (fnm : PStr → PStr → Bool) (rules : IgnoreRules) (path : PStr) :
    Option Bool :=
  (rules.reverse.find? (fun r => fnm path r.1)).map Prod.snd

/-- Spec-side wording of the scope order: the parent directories of the path
from the deepest upward, ending with the repository root scope. -/
def parentChain : Nat → PStr → List PStr
  | 0, _ => []
  | fuel + 1, parent =>
    if parent = [] then [[]] else parent :: parentChain fuel (pyDirname parent)

/-! ## Theorems -/

theorem length_dropWhile_le_wyag {α : Type} (p : α → Bool) (l : List α) :
    (l.dropWhile p).length ≤ l.length := by
  induction l with
  | nil => simp [List.dropWhile]
  | cons a t ih =>
    by_cases h : p a
    · simpa [List.dropWhile, h] using Nat.le_succ_of_le ih
    · simp [List.dropWhile, h]

theorem drop_add_of_drop {x s : Bytes} {start : Nat} (h : x.drop start = s) (k : Nat) :
    x.drop (start + k) = s.drop k := by
  rw [← h, ← List.drop_drop]

theorem drop_succ_of_drop_cons {x : Bytes} {start c : Nat} {s : Bytes}
    (h : x.drop start = c :: s) : x.drop (start + 1) = s := by
  have := drop_add_of_drop h 1
  simpa using this

theorem start_le_of_drop {x s : Bytes} {start : Nat} (h : x.drop start = s) (hne : s ≠ []) :
    start + s.length = x.length := by
  have h1 : s.length = x.length - start := by rw [← h, List.length_drop]
  by_cases hle : start ≤ x.length
  · omega
  · exfalso
    apply hne
    rw [← h]
    apply List.drop_eq_nil_of_le
    omega

theorem findIdx?_first_hit {b : Nat} {u w : Bytes} (hu : ∀ c ∈ u, c ≠ b) :
    (u ++ b :: w).findIdx? (fun c => c == b) = some u.length := by
  rw [List.findIdx?_append]
  have h1 : u.findIdx? (fun c => c == b) = none := by
    rw [List.findIdx?_eq_none_iff]
    intro c hc
    simp [hu c hc]
  simp [h1]

theorem pyFind_hit {x u w : Bytes} {start b : Nat}
    (h : x.drop start = u ++ b :: w) (hu : ∀ c ∈ u, c ≠ b) :
    pyFind x b start = (start : Int) + u.length := by
  rw [pyFind, h, findIdx?_first_hit hu]

theorem pyFind_ge {x u v : Bytes} {start b : Nat}
    (h : x.drop start = u ++ v) (hu : ∀ c ∈ u, c ≠ b) :
    pyFind x b start = -1 ∨ ∃ j : Nat, pyFind x b start = (start : Int) + u.length + j := by
  rw [pyFind, h, List.findIdx?_append]
  have h1 : u.findIdx? (fun c => c == b) = none := by
    rw [List.findIdx?_eq_none_iff]
    intro c hc
    simp [hu c hc]
  rw [h1]
  cases hv : v.findIdx? (fun c => c == b) with
  | none => simp
  | some j =>
    right
    refine ⟨j, ?_⟩
    simp
    omega

theorem pyIndex_of_drop {x s : Bytes} {start i c : Nat}
    (h : x.drop start = s) (hc : s.get? i = some c) :
    pyIndex x ((start : Int) + i) = some c := by
  have hnn : ¬((start : Int) + i < 0) := by omega
  rw [pyIndex]
  simp only [hnn, if_false]
  have h2 : ((start : Int) + i).toNat = start + i := by omega
  rw [h2, ← List.get?_drop, h, hc]

theorem pySliceI_natCast (x : Bytes) (a b : Nat) :
    pySliceI x (a : Int) (b : Int) = (x.drop a).take (b - a) := by
  rw [pySliceI]
  have hna : (if (a : Int) < 0 then max ((x.length : Int) + a) 0
      else min (a : Int) x.length).toNat = min a x.length := by
    simp only [if_neg (by omega : ¬((a : Int) < 0))]
    omega
  have hnb : (if (b : Int) < 0 then max ((x.length : Int) + b) 0
      else min (b : Int) x.length).toNat = min b x.length := by
    simp only [if_neg (by omega : ¬((b : Int) < 0))]
    omega
  simp only [hna, hnb]
  have hd : x.drop (min a x.length) = x.drop a := by
    rcases Nat.le_total a x.length with hle | hle
    · rw [Nat.min_eq_left hle]
    · rw [Nat.min_eq_right hle, List.drop_eq_nil_of_le (Nat.le_refl _),
        List.drop_eq_nil_of_le hle]
  rw [hd, List.take_eq_take]
  have hlen : (x.drop a).length = x.length - a := List.length_drop a x
  omega

theorem pySliceI_of_drop {x u v : Bytes} {a : Nat} (h : x.drop a = u ++ v) :
    pySliceI x (a : Int) ((a : Int) + u.length) = u := by
  have hcast : ((a : Int) + (u.length : Int)) = ((a + u.length : Nat) : Int) := by
    push_cast
    ring
  rw [hcast, pySliceI_natCast, h]
  have h2 : a + u.length - a = u.length := by omega
  rw [h2, List.take_left]

theorem foldedOk_cons_ne {c : Nat} (r : Bytes) (hc : c ≠ 10) :
    foldedOk (c :: r) = foldedOk r := by
  rcases r with _ | ⟨d, r2⟩ <;> simp [foldedOk, hc]

theorem foldedOk_fold (r : Bytes) : foldedOk (10 :: 32 :: r) = foldedOk r := by
  show (32 == 32 && foldedOk r) = foldedOk r
  simp

theorem foldedOk_append_nofold {u : Bytes} (v : Bytes) (hu : ∀ c ∈ u, c ≠ 10) :
    foldedOk (u ++ v) = foldedOk v := by
  induction u with
  | nil => rfl
  | cons c t ih =>
    rw [List.cons_append, foldedOk_cons_ne _ (hu c (List.mem_cons_self c t))]
    exact ih (fun d hd => hu d (List.mem_cons_of_mem c hd))

theorem foldedOk_split {b : Bytes} (hb : foldedOk b = true) (hmem : 10 ∈ b) :
    ∃ u r, (∀ c ∈ u, c ≠ 10) ∧ b = u ++ 10 :: 32 :: r ∧ foldedOk r = true := by
  induction b with
  | nil => simp at hmem
  | cons c rest ih =>
    by_cases hc : c = 10
    · subst hc
      rcases rest with _ | ⟨d, r2⟩
      · simp [foldedOk] at hb
      · have hd : d = 32 ∧ foldedOk r2 = true := by
          simpa [foldedOk] using hb
        refine ⟨[], r2, by simp, by simp [hd.1], hd.2⟩
    · have hmem2 : 10 ∈ rest := by
        rcases List.mem_cons.mp hmem with h1 | h1
        · exact absurd h1.symm hc
        · exact h1
      have hb2 : foldedOk rest = true := by
        rw [foldedOk_cons_ne _ hc] at hb
        exact hb
      obtain ⟨u, r, hu, heq, hr⟩ := ih hb2 hmem2
      refine ⟨c :: u, r, ?_, by simp [heq], hr⟩
      intro d hd
      rcases List.mem_cons.mp hd with h1 | h1
      · exact h1 ▸ hc
      · exact hu d h1

theorem foldNl_unfoldNl {b : Bytes} (hb : foldedOk b = true) : foldNl (unfoldNl b) = b := by
  induction b using unfoldNl.induct with
  | case1 => rfl
  | case2 c =>
    by_cases hc : c = 10
    · subst hc
      simp [foldedOk] at hb
    · simp [unfoldNl, foldNl, hc]
  | case3 c d rest hcd ih =>
    obtain ⟨hc, hd⟩ := hcd
    subst hc
    subst hd
    rw [foldedOk_fold] at hb
    simp [unfoldNl, foldNl, ih hb]
  | case4 c d rest hcd ih =>
    by_cases hc : c = 10
    · subst hc
      have hd : d = 32 ∧ foldedOk rest = true := by simpa [foldedOk] using hb
      exact absurd ⟨rfl, hd.1⟩ hcd
    · have hrest : foldedOk (d :: rest) = true := by
        rw [foldedOk_cons_ne _ hc] at hb
        exact hb
      simp [unfoldNl, foldNl, hc, hcd, ih hrest]

theorem kvlmFindEnd_last {x : Bytes} {e : Nat} {b : Bytes} {z : Nat} {w : Bytes} {fuel : Nat}
    (hmem : 10 ∉ b) (hfuel : 1 ≤ fuel) (hdrop : x.drop (e + 1) = b ++ 10 :: z :: w)
    (hz : z ≠ 32) :
    kvlmFindEnd x fuel (e : Int) = Except.ok ((e : Int) + 1 + b.length) := by
  obtain ⟨f, rfl⟩ : ∃ f, fuel = f + 1 := ⟨fuel - 1, by omega⟩
  simp only [kvlmFindEnd]
  have hcast : ((e : Int) + 1).toNat = e + 1 := by omega
  rw [hcast]
  have hfind : pyFind x 10 (e + 1) = ((e + 1 : Nat) : Int) + b.length :=
    pyFind_hit hdrop (fun c hc hceq => hmem (hceq ▸ hc))
  rw [hfind]
  have hget : (b ++ 10 :: z :: w).get? (b.length + 1) = some z := by
    rw [List.get?_append_right (by omega)]
    have h2 : b.length + 1 - b.length = 1 := by omega
    rw [h2]
    rfl
  have hidx : pyIndex x (((e + 1 : Nat) : Int) + (b.length : Int) + 1) = some z := by
    have h3 : ((e + 1 : Nat) : Int) + (b.length : Int) + 1
        = ((e + 1 : Nat) : Int) + ((b.length + 1 : Nat) : Int) := by
      push_cast
      ring
    rw [h3]
    exact pyIndex_of_drop hdrop hget
  simp only [hidx]
  rw [if_neg hz]
  congr 1

theorem kvlmFindEnd_ok {x : Bytes} : ∀ (n : Nat) (b : Bytes), b.length ≤ n →
    ∀ (e fuel z : Nat) (w : Bytes), foldedOk b = true → b.length + 1 ≤ fuel →
    x.drop (e + 1) = b ++ 10 :: z :: w → z ≠ 32 →
    kvlmFindEnd x fuel (e : Int) = Except.ok ((e : Int) + 1 + b.length) := by
  intro n
  induction n with
  | zero =>
    intro b hlen e fuel z w hb hfuel hdrop hz
    have hb0 : b = [] := List.length_eq_zero.mp (by omega)
    subst hb0
    exact kvlmFindEnd_last (by simp) (by omega) hdrop hz
  | succ n ih =>
    intro b hlen e fuel z w hb hfuel hdrop hz
    by_cases hmem : 10 ∈ b
    · obtain ⟨u, r, hu, hbeq, hr⟩ := foldedOk_split hb hmem
      subst hbeq
      obtain ⟨f, rfl⟩ : ∃ f, fuel = f + 1 := ⟨fuel - 1, by omega⟩
      simp only [kvlmFindEnd]
      have hcast : ((e : Int) + 1).toNat = e + 1 := by omega
      rw [hcast]
      have hdrop2 : x.drop (e + 1) = u ++ 10 :: (32 :: (r ++ 10 :: z :: w)) := by
        simpa using hdrop
      have hfind : pyFind x 10 (e + 1) = ((e + 1 : Nat) : Int) + u.length :=
        pyFind_hit hdrop2 hu
      rw [hfind]
      have hget : (u ++ 10 :: (32 :: (r ++ 10 :: z :: w))).get? (u.length + 1) = some 32 := by
        rw [List.get?_append_right (by omega)]
        have h2 : u.length + 1 - u.length = 1 := by omega
        rw [h2]
        rfl
      have hidx : pyIndex x (((e + 1 : Nat) : Int) + (u.length : Int) + 1) = some 32 := by
        have h3 : ((e + 1 : Nat) : Int) + (u.length : Int) + 1
            = ((e + 1 : Nat) : Int) + ((u.length + 1 : Nat) : Int) := by
          push_cast
          ring
        rw [h3]
        exact pyIndex_of_drop hdrop2 hget
      simp only [hidx, if_true]
      have hInt : ((e + 1 : Nat) : Int) + (u.length : Int) = ((e + 1 + u.length : Nat) : Int) := by
        push_cast
        ring
      rw [hInt]
      have hdrop3 : x.drop ((e + 1 + u.length) + 1) = (32 :: r) ++ 10 :: z :: w := by
        have h4 := drop_add_of_drop hdrop2 (u.length + 1)
        have hre : u ++ 10 :: (32 :: (r ++ 10 :: z :: w))
            = (u ++ [10]) ++ (32 :: (r ++ 10 :: z :: w)) := by simp
        rw [hre, List.drop_left' (by simp)] at h4
        have h5 : e + 1 + u.length + 1 = e + 1 + (u.length + 1) := by omega
        rw [h5, h4]
        simp
      have hbrec : foldedOk (32 :: r) = true := by
        rw [foldedOk_cons_ne r (by omega)]
        exact hr
      have hlenrec : (32 :: r).length ≤ n := by
        simp only [List.length_cons]
        have : (u ++ 10 :: 32 :: r).length = u.length + 2 + r.length := by
          simp [List.length_append]
          omega
        omega
      have hfuelrec : (32 :: r).length + 1 ≤ f := by
        simp only [List.length_cons]
        have : (u ++ 10 :: 32 :: r).length = u.length + 2 + r.length := by
          simp [List.length_append]
          omega
        omega
      rw [ih (32 :: r) hlenrec (e + 1 + u.length) f z w hbrec hfuelrec hdrop3 hz]
      congr 1
      simp only [List.length_cons, List.length_append]
      push_cast
      ring
    · exact kvlmFindEnd_last hmem (by omega) hdrop hz

theorem pyFind_found {x u v : Bytes} {start b : Nat}
    (h : x.drop start = u ++ v) (hu : ∀ c ∈ u, c ≠ b) (hv : b ∈ v) :
    ∃ j : Nat, pyFind x b start = (start : Int) + u.length + j := by
  rw [pyFind, h, List.findIdx?_append]
  have h1 : u.findIdx? (fun c => c == b) = none := by
    rw [List.findIdx?_eq_none_iff]
    intro c hc
    simp [hu c hc]
  rw [h1]
  cases hvf : v.findIdx? (fun c => c == b) with
  | none =>
    rw [List.findIdx?_eq_none_iff] at hvf
    have := hvf b hv
    simp at this
  | some j =>
    refine ⟨j, ?_⟩
    simp only [Option.map_some', Option.none_or]
    push_cast
    ring

theorem encodeKvlm_cons (h : KvlmLine) (t : List KvlmLine) (msg : Bytes) :
    encodeKvlm (h :: t) msg = encodeLine h ++ encodeKvlm t msg := by
  simp [encodeKvlm, List.append_assoc]

theorem encodeKvlm_head {t : List KvlmLine} (msg : Bytes) (hok : ∀ h ∈ t, lineOk h) :
    ∃ z w, encodeKvlm t msg = z :: w ∧ z ≠ 32 := by
  cases t with
  | nil => exact ⟨10, msg, rfl, by omega⟩
  | cons h2 t2 =>
    have hk := (hok h2 (List.mem_cons_self h2 t2)).1
    obtain ⟨c, k2, hc⟩ : ∃ c k2, h2.key = c :: k2 := by
      rcases hkeq : h2.key with _ | ⟨c, k2⟩
      · exact absurd hkeq hk.1
      · exact ⟨c, k2, rfl⟩
    refine ⟨c, k2 ++ 32 :: (h2.body ++ [10]) ++ encodeKvlm t2 msg, ?_, ?_⟩
    · rw [encodeKvlm_cons, encodeLine, hc]
      simp [List.append_assoc]
    · intro hc32
      exact hk.2.1 (by rw [hc, hc32]; exact List.mem_cons_self _ _)

theorem kvlmParseGo_encode (x : Bytes) :
    ∀ (hs : List KvlmLine) (msg : Bytes) (start : Nat) (dct : Kvlm) (fuel : Nat),
      (∀ h ∈ hs, lineOk h) → hs.length < fuel →
      x.drop start = encodeKvlm hs msg →
      kvlmParseGo x fuel start dct =
        Except.ok (dictSet (insertAll dct (pairsOf hs)) none (KVal.scalar msg)) := by
  intro hs
  induction hs with
  | nil =>
    intro msg start dct fuel hok hfuel hdrop
    obtain ⟨f, rfl⟩ : ∃ f, fuel = f + 1 := ⟨fuel - 1, by omega⟩
    simp only [kvlmParseGo]
    have hdrop2 : x.drop start = 10 :: msg := by simpa [encodeKvlm] using hdrop
    have hnl : pyFind x 10 start = (start : Int) := by
      have h0 := pyFind_hit (u := []) (w := msg) (by simpa using hdrop2) (by simp)
      simpa using h0
    have hns := pyFind_ge (u := [10]) (v := msg) (b := 32) (by simpa using hdrop2)
      (by intro c hc; simp at hc; omega)
    have hcond : pyFind x 32 start < 0 ∨ pyFind x 10 start < pyFind x 32 start := by
      rcases hns with hns | ⟨j, hns⟩
      · left
        rw [hns]
        omega
      · right
        rw [hns, hnl]
        simp only [List.length_cons, List.length_nil]
        omega
    rw [if_pos hcond, hnl, if_pos rfl, drop_succ_of_drop_cons hdrop2]
    rfl
  | cons h t ih =>
    intro msg start dct fuel hok hfuel hdrop
    obtain ⟨f, rfl⟩ : ∃ f, fuel = f + 1 := ⟨fuel - 1, by omega⟩
    have hline := hok h (List.mem_cons_self h t)
    obtain ⟨hkne, hk32, hk10⟩ := hline.1
    have hbody := hline.2
    obtain ⟨c0, kt, hkey⟩ : ∃ c0 kt, h.key = c0 :: kt := by
      rcases hkeq : h.key with _ | ⟨c0, kt⟩
      · exact absurd hkeq hkne
      · exact ⟨c0, kt, rfl⟩
    obtain ⟨z, w, hR, hz⟩ := encodeKvlm_head (t := t) msg
      (fun g hg => hok g (List.mem_cons_of_mem h hg))
    have hdropS : x.drop start = h.key ++ 32 :: (h.body ++ 10 :: (z :: w)) := by
      rw [hdrop, encodeKvlm_cons, encodeLine, hR]
      simp [List.append_assoc]
    have hu32 : ∀ c ∈ h.key, c ≠ 32 := fun c hc hceq => hk32 (hceq ▸ hc)
    have hu10 : ∀ c ∈ h.key, c ≠ 10 := fun c hc hceq => hk10 (hceq ▸ hc)
    have hf32 : pyFind x 32 start = (start : Int) + h.key.length := pyFind_hit hdropS hu32
    have hb0 : x.drop (start + 1) = (kt ++ 32 :: h.body) ++ 10 :: z :: w := by
      have h1 : x.drop start = c0 :: (kt ++ 32 :: (h.body ++ 10 :: (z :: w))) := by
        rw [hdropS, hkey]
        rfl
      rw [drop_succ_of_drop_cons h1]
      simp [List.append_assoc]
    have hb0f : foldedOk (kt ++ 32 :: h.body) = true := by
      have hkt10 : ∀ c ∈ kt, c ≠ 10 := fun c hc => hu10 c (by rw [hkey]; exact List.mem_cons_of_mem c0 hc)
      rw [foldedOk_append_nofold _ hkt10, foldedOk_cons_ne _ (by omega)]
      exact hbody
    have hb0len : start + 1 + ((kt ++ 32 :: h.body) ++ 10 :: z :: w).length = x.length :=
      start_le_of_drop hb0 (by simp)
    have hfe : kvlmFindEnd x (x.length + 1) (start : Int) =
        Except.ok ((start : Int) + 1 + (kt ++ 32 :: h.body).length) := by
      apply kvlmFindEnd_ok (kt ++ 32 :: h.body).length _ (Nat.le_refl _) start (x.length + 1) z w hb0f _ hb0 hz
      simp only [List.length_append, List.length_cons] at hb0len ⊢
      omega
    have hlineR : x.drop (start + (h.key.length + 1)) = h.body ++ 10 :: (z :: w) := by
      have h2 := drop_add_of_drop hdropS (h.key.length + 1)
      rw [h2]
      have h3 : h.key ++ 32 :: (h.body ++ 10 :: (z :: w))
          = (h.key ++ [32]) ++ (h.body ++ 10 :: (z :: w)) := by simp
      rw [h3, List.drop_left' (by simp)]
    have hcond : ¬(pyFind x 32 start < 0 ∨ pyFind x 10 start < pyFind x 32 start) := by
      obtain ⟨j, hj⟩ := pyFind_found (u := h.key ++ [32]) (v := h.body ++ 10 :: (z :: w))
        (b := 10) (by simpa using hdropS)
        (by
          intro c hc
          rcases List.mem_append.mp hc with hc1 | hc1
          · exact hu10 c hc1
          · simp at hc1
            omega)
        (by simp)
      push_neg
      rw [hf32, hj]
      constructor
      · omega
      · simp only [List.length_append, List.length_cons, List.length_nil]
        push_cast
        omega
    simp only [kvlmParseGo]
    rw [if_neg hcond]
    rw [hf32]
    simp only [hfe]
    have eKey : pySliceI x (start : Int) ((start : Int) + h.key.length) = h.key :=
      pySliceI_of_drop (v := 32 :: (h.body ++ 10 :: (z :: w))) hdropS
    have hblen : ((kt ++ 32 :: h.body).length : Int) = (h.key.length : Int) + h.body.length := by
      rw [hkey]
      simp only [List.length_append, List.length_cons]
      push_cast
      ring
    have eA : (start : Int) + h.key.length + 1 = ((start + h.key.length + 1 : Nat) : Int) := by
      push_cast
      ring
    have eB : (start : Int) + 1 + ((kt ++ 32 :: h.body).length : Int)
        = ((start + h.key.length + 1 : Nat) : Int) + (h.body.length : Int) := by
      rw [hblen]
      push_cast
      ring
    rw [eA, eB]
    have eVal : pySliceI x ((start + h.key.length + 1 : Nat) : Int)
        (((start + h.key.length + 1 : Nat) : Int) + h.body.length) = h.body := by
      apply pySliceI_of_drop (v := 10 :: (z :: w))
      have h4 : start + h.key.length + 1 = start + (h.key.length + 1) := by omega
      rw [h4]
      exact hlineR
    rw [eVal, eKey]
    have eNext : ((((start + h.key.length + 1 : Nat) : Int) + (h.body.length : Int)) + 1).toNat
        = start + (encodeLine h).length := by
      simp only [encodeLine, List.length_append, List.length_cons, List.length_nil]
      omega
    rw [eNext]
    have hdropR : x.drop (start + (encodeLine h).length) = encodeKvlm t msg := by
      have h5 := drop_add_of_drop hdrop (encodeLine h).length
      rw [h5, encodeKvlm_cons, List.drop_left]
    have hfuel2 : t.length < f := by
      simp only [List.length_cons] at hfuel
      omega
    rw [ih msg (start + (encodeLine h).length) (kvlmInsert dct h.key (unfoldNl h.body)) f
      (fun g hg => hok g (List.mem_cons_of_mem h hg)) hfuel2 hdropR]
    rfl

theorem foldl_append_extract {b : Type} (g : b → Bytes) (l : List b) (init : Bytes) :
    l.foldl (fun a v => a ++ g v) init = init ++ (l.map g).flatten := by
  induction l generalizing init with
  | nil => simp
  | cons v t ih => simp [ih, List.append_assoc]

theorem serialize_foldl (l : Kvlm) (init : Bytes) :
    l.foldl (fun acc p =>
      match p.1 with
      | none => acc
      | some k => (kvalList p.2).foldl (fun a v => a ++ (k ++ 32 :: (foldNl v ++ [10]))) acc)
      init
    = init ++ (l.map serEntry).flatten := by
  induction l generalizing init with
  | nil => simp
  | cons p t ih =>
    rcases p with ⟨ko, v⟩
    cases ko with
    | none => simpa [serEntry] using ih init
    | some k =>
      simp only [List.foldl_cons]
      rw [foldl_append_extract, ih]
      simp [serEntry, List.append_assoc]

theorem kvlmSerialize_of_msg {l : Kvlm} {m : Bytes}
    (hm : dictGet l none = some (KVal.scalar m)) :
    kvlmSerialize l = Except.ok ((l.map serEntry).flatten ++ 10 :: m) := by
  simp only [kvlmSerialize]
  rw [serialize_foldl, hm]
  simp

theorem kvlmInsert_cons_ne {k0 : Option Bytes} {v0 : KVal} {d : Kvlm} {k v : Bytes}
    (h : k0 ≠ some k) :
    kvlmInsert ((k0, v0) :: d) k v = (k0, v0) :: kvlmInsert d k v := by
  simp [kvlmInsert, h]

theorem insertAll_cons_ne {k0 : Option Bytes} {v0 : KVal} (ps : List (Bytes × Bytes))
    (d : Kvlm) (hps : ∀ p ∈ ps, k0 ≠ some p.1) :
    insertAll ((k0, v0) :: d) ps = (k0, v0) :: insertAll d ps := by
  induction ps generalizing d with
  | nil => rfl
  | cons p pt ih =>
    simp only [insertAll, List.foldl_cons]
    rw [kvlmInsert_cons_ne (hps p (List.mem_cons_self p pt))]
    exact ih (kvlmInsert d p.1 p.2) (fun q hq => hps q (List.mem_cons_of_mem p hq))

theorem kvlmInsert_head (k : Bytes) (a : KVal) (d : Kvlm) (v : Bytes) :
    kvlmInsert ((some k, a) :: d) k v = (some k, kvalPush a v) :: d := by
  cases a <;> simp [kvlmInsert, kvalPush]

theorem insertAll_run (k : Bytes) (vs : List Bytes) (a : KVal) (d : Kvlm) :
    insertAll ((some k, a) :: d) (vs.map (fun v => (k, v)))
      = (some k, vs.foldl kvalPush a) :: d := by
  induction vs generalizing a with
  | nil => rfl
  | cons v vt ih =>
    simp only [List.map_cons, insertAll, List.foldl_cons] at ih ⊢
    rw [kvlmInsert_head]
    exact ih (kvalPush a v)

theorem foldl_kvalPush_listv (vs : List Bytes) (bs : List Bytes) :
    vs.foldl kvalPush (KVal.listv bs) = KVal.listv (bs ++ vs) := by
  induction vs generalizing bs with
  | nil => simp
  | cons v vt ih =>
    simp only [List.foldl_cons, kvalPush]
    rw [ih]
    simp

theorem foldl_kvalPush_scalar (v0 : Bytes) (vs : List Bytes) :
    vs.foldl kvalPush (KVal.scalar v0) = kvalOf (v0 :: vs) := by
  cases vs with
  | nil => rfl
  | cons v1 vt =>
    simp only [List.foldl_cons, kvalPush]
    rw [foldl_kvalPush_listv]
    rfl

theorem kvalList_kvalOf {vs : List Bytes} (h : vs ≠ []) : kvalList (kvalOf vs) = vs := by
  rcases vs with _ | ⟨v0, _ | ⟨v1, vt⟩⟩
  · exact absurd rfl h
  · rfl
  · rfl

theorem insertAll_block (k : Bytes) (v0 : Bytes) (vs : List Bytes) :
    insertAll [] ((v0 :: vs).map (fun v => (k, v))) = [(some k, kvalOf (v0 :: vs))] := by
  have h0 : insertAll [] ((v0 :: vs).map (fun v => (k, v)))
      = insertAll [(some k, KVal.scalar v0)] (vs.map (fun v => (k, v))) := rfl
  rw [h0, insertAll_run, foldl_kvalPush_scalar]

theorem kvlmInsert_keys {d : Kvlm} {k v : Bytes} (hd : ∀ q ∈ d, q.1 ≠ none) :
    ∀ q ∈ kvlmInsert d k v, q.1 ≠ none := by
  induction d with
  | nil =>
    intro q hq
    simp only [kvlmInsert, List.mem_singleton] at hq
    subst hq
    simp
  | cons p t ih =>
    rcases p with ⟨k0, v0⟩
    intro q hq
    by_cases hk : k0 = some k
    · subst hk
      rw [kvlmInsert_head k v0 t v] at hq
      rcases List.mem_cons.mp hq with hq | hq
      · subst hq
        simp
      · exact hd q (List.mem_cons_of_mem _ hq)
    · rw [kvlmInsert_cons_ne hk] at hq
      rcases List.mem_cons.mp hq with hq | hq
      · subst hq
        exact hd (k0, v0) (List.mem_cons_self _ _)
      · exact ih (fun r hr => hd r (List.mem_cons_of_mem _ hr)) q hq

theorem insertAll_keys (ps : List (Bytes × Bytes)) :
    ∀ (d : Kvlm), (∀ q ∈ d, q.1 ≠ none) → ∀ q ∈ insertAll d ps, q.1 ≠ none := by
  induction ps with
  | nil => exact fun d hd => hd
  | cons p pt ih =>
    intro d hd
    exact ih (kvlmInsert d p.1 p.2) (kvlmInsert_keys hd)

theorem dictSet_none_append (d : Kvlm) (v : KVal) (hd : ∀ q ∈ d, q.1 ≠ none) :
    dictSet d none v = d ++ [(none, v)] := by
  induction d with
  | nil => rfl
  | cons p t ih =>
    rcases p with ⟨k0, v0⟩
    have hne : k0 ≠ none := hd (k0, v0) (List.mem_cons_self _ _)
    simp only [dictSet, if_neg hne, List.cons_append]
    rw [ih (fun q hq => hd q (List.mem_cons_of_mem _ hq))]

theorem dictGet_none_append (d : Kvlm) (v : KVal) (hd : ∀ q ∈ d, q.1 ≠ none) :
    dictGet (d ++ [(none, v)]) none = some v := by
  induction d with
  | nil => rfl
  | cons p t ih =>
    rcases p with ⟨k0, v0⟩
    have hne : k0 ≠ none := hd (k0, v0) (List.mem_cons_self _ _)
    simp only [List.cons_append, dictGet, if_neg hne]
    exact ih (fun q hq => hd q (List.mem_cons_of_mem _ hq))

theorem pairsOf_run {k : Bytes} {run : List KvlmLine} (hk : ∀ g ∈ run, g.key = k) :
    pairsOf run = (run.map (fun g => unfoldNl g.body)).map (fun v => (k, v)) := by
  rw [pairsOf, List.map_map]
  apply List.map_congr_left
  intro g hg
  simp [hk g hg]

theorem keysGrouped_cons {h : KvlmLine} {t : List KvlmLine}
    (hg : keysGrouped (h :: t) = true) :
    (t.dropWhile (fun x => x.key == h.key)).all (fun x => !(x.key == h.key)) = true ∧
      keysGrouped (t.dropWhile (fun x => x.key == h.key)) = true := by
  rw [keysGrouped] at hg
  simpa using hg

theorem encodeKvlm_append (l1 l2 : List KvlmLine) (msg : Bytes) :
    encodeKvlm (l1 ++ l2) msg = (l1.map encodeLine).flatten ++ encodeKvlm l2 msg := by
  simp [encodeKvlm, List.append_assoc]

theorem serialize_insertAll : ∀ (n : Nat) (hs : List KvlmLine), hs.length ≤ n →
    ∀ (msg : Bytes), (∀ h ∈ hs, lineOk h) → keysGrouped hs = true →
    kvlmSerialize (dictSet (insertAll [] (pairsOf hs)) none (KVal.scalar msg)) =
      Except.ok (encodeKvlm hs msg) := by
  intro n
  induction n with
  | zero =>
    intro hs hlen msg hok hg
    have hnil : hs = [] := List.length_eq_zero.mp (by omega)
    subst hnil
    rfl
  | succ n ihn =>
    intro hs hlen msg hok hg
    cases hs with
    | nil => rfl
    | cons h t =>
      obtain ⟨hall, hgrest⟩ := keysGrouped_cons hg
      have hsplit : h :: t
          = (h :: t.takeWhile (fun x => x.key == h.key))
            ++ t.dropWhile (fun x => x.key == h.key) := by
        rw [List.cons_append, List.takeWhile_append_dropWhile]
      have hkrun : ∀ g ∈ h :: t.takeWhile (fun x => x.key == h.key), g.key = h.key := by
        intro g hgmem
        rcases List.mem_cons.mp hgmem with hgmem | hgmem
        · rw [hgmem]
        · simpa using List.mem_takeWhile_imp hgmem
      have hmemrest : ∀ g ∈ t.dropWhile (fun x => x.key == h.key), g ∈ h :: t := by
        intro g hgmem
        rw [hsplit]
        exact List.mem_append_right _ hgmem
      have hmemrun : ∀ g ∈ h :: t.takeWhile (fun x => x.key == h.key), g ∈ h :: t := by
        intro g hgmem
        rw [hsplit]
        exact List.mem_append_left _ hgmem
      have hlenrest : (t.dropWhile (fun x => x.key == h.key)).length ≤ n := by
        have := length_dropWhile_le_wyag (fun (x : KvlmLine) => x.key == h.key) t
        simp only [List.length_cons] at hlen
        omega
      have hne : ∀ p ∈ pairsOf (t.dropWhile (fun x => x.key == h.key)),
          (some h.key : Option Bytes) ≠ some p.1 := by
        intro p hp
        simp only [pairsOf, List.mem_map] at hp
        obtain ⟨g, hgmem, rfl⟩ := hp
        have := List.all_eq_true.mp hall g hgmem
        simp at this
        simp only [ne_eq, Option.some.injEq]
        intro hcontra
        exact this (by rw [hcontra])
      have hb1 : insertAll [] (pairsOf (h :: t))
          = (some h.key,
              kvalOf (unfoldNl h.body :: (t.takeWhile (fun x => x.key == h.key)).map
                (fun g => unfoldNl g.body)))
            :: insertAll [] (pairsOf (t.dropWhile (fun x => x.key == h.key))) := by
        conv_lhs => rw [hsplit]
        rw [pairsOf, List.map_append, ← pairsOf, ← pairsOf, insertAll, List.foldl_append,
          ← insertAll, ← insertAll, pairsOf_run hkrun, List.map_cons, insertAll_block]
        rw [insertAll_cons_ne _ _ hne]
      rw [hb1]
      have hkeysD : ∀ q ∈ insertAll [] (pairsOf (t.dropWhile (fun x => x.key == h.key))),
          q.1 ≠ none := insertAll_keys _ [] (by simp)
      have hD : dictSet ((some h.key,
            kvalOf (unfoldNl h.body :: (t.takeWhile (fun x => x.key == h.key)).map
              (fun g => unfoldNl g.body)))
            :: insertAll [] (pairsOf (t.dropWhile (fun x => x.key == h.key)))) none
            (KVal.scalar msg)
          = (some h.key,
              kvalOf (unfoldNl h.body :: (t.takeWhile (fun x => x.key == h.key)).map
                (fun g => unfoldNl g.body)))
            :: dictSet (insertAll [] (pairsOf (t.dropWhile (fun x => x.key == h.key)))) none
              (KVal.scalar msg) := by
        simp [dictSet]
      rw [hD]
      have hgetD : dictGet (dictSet (insertAll []
            (pairsOf (t.dropWhile (fun x => x.key == h.key)))) none (KVal.scalar msg)) none
          = some (KVal.scalar msg) := by
        rw [dictSet_none_append _ _ hkeysD, dictGet_none_append _ _ hkeysD]
      have hgetC : dictGet ((some h.key,
            kvalOf (unfoldNl h.body :: (t.takeWhile (fun x => x.key == h.key)).map
              (fun g => unfoldNl g.body)))
            :: dictSet (insertAll [] (pairsOf (t.dropWhile (fun x => x.key == h.key)))) none
              (KVal.scalar msg)) none
          = some (KVal.scalar msg) := by
        simp only [dictGet, if_neg (by simp : (some h.key : Option Bytes) ≠ none)]
        exact hgetD
      rw [kvlmSerialize_of_msg hgetC]
      have hser := kvlmSerialize_of_msg hgetD
      have hIH := ihn (t.dropWhile (fun x => x.key == h.key)) hlenrest msg
        (fun g hgmem => hok g (hmemrest g hgmem)) hgrest
      rw [hser] at hIH
      have hflat : ((dictSet (insertAll []
            (pairsOf (t.dropWhile (fun x => x.key == h.key)))) none
            (KVal.scalar msg)).map serEntry).flatten ++ 10 :: msg
          = encodeKvlm (t.dropWhile (fun x => x.key == h.key)) msg :=
        Except.ok.inj hIH
      have hserEntry : serEntry (some h.key,
            kvalOf (unfoldNl h.body :: (t.takeWhile (fun x => x.key == h.key)).map
              (fun g => unfoldNl g.body)))
          = ((h :: t.takeWhile (fun x => x.key == h.key)).map encodeLine).flatten := by
        simp only [serEntry]
        rw [kvalList_kvalOf (by simp)]
        simp only [List.map_cons, List.map_map, List.flatten_cons]
        congr 1
        · rw [foldNl_unfoldNl (hok h (List.mem_cons_self h t)).2, encodeLine]
        · congr 1
          apply List.map_congr_left
          intro g hgmem
          have hgmem2 : g ∈ h :: t.takeWhile (fun x => x.key == h.key) :=
            List.mem_cons_of_mem _ hgmem
          have hgok := hok g (hmemrun g hgmem2)
          simp only [Function.comp_apply]
          rw [foldNl_unfoldNl hgok.2, encodeLine, hkrun g hgmem2]
      conv_rhs => rw [hsplit, encodeKvlm_append]
      simp only [List.map_cons, List.flatten_cons, hserEntry, List.append_assoc]
      rw [hflat]

theorem encodeKvlm_length_ge (hs : List KvlmLine) (msg : Bytes) :
    hs.length ≤ (encodeKvlm hs msg).length := by
  induction hs with
  | nil => simp [encodeKvlm]
  | cons h t ih =>
    rw [encodeKvlm_cons]
    simp only [List.length_cons, List.length_append]
    have h1 : (encodeLine h).length = h.key.length + (h.body.length + 1) + 1 := by
      simp [encodeLine]
      omega
    omega

/-- C1 (amended): for every well-formed KVLM byte string in which the
occurrences of each duplicated key are contiguous, kvlm_serialize after
kvlm_parse returns the input byte-for-byte: key order, duplicate-key value
order, folded continuation lines and the trailing message are restored. -/
theorem C1_kvlm_roundtrip (hs : List KvlmLine) (msg : Bytes)
    (hok : ∀ h ∈ hs, lineOk h) (hg : keysGrouped hs = true) :
    (kvlmParse (encodeKvlm hs msg)).bind kvlmSerialize
      = Except.ok (encodeKvlm hs msg) := by
  rw [kvlmParse]
  rw [kvlmParseGo_encode (encodeKvlm hs msg) hs msg 0 [] ((encodeKvlm hs msg).length + 2) hok
    (by have := encodeKvlm_length_ge hs msg; omega) (by simp)]
  simp only [Except.bind]
  exact serialize_insertAll hs.length hs (Nat.le_refl _) msg hok hg

/-- C1 as stated is false: the well-formed payload "a 1, b 2, a 3, blank, m"
(keys a and b, with the duplicate key a interleaved around b) parses and
re-serializes to "a 1, a 3, b 2, blank, m", not to the input, because
kvlm_parse groups duplicate-key values at the first occurrence of the key. -/
theorem C1_counterexample :
    (∀ h ∈ [(⟨[97], [49]⟩ : KvlmLine), ⟨[98], [50]⟩, ⟨[97], [51]⟩], lineOk h) ∧
    (kvlmParse (encodeKvlm [⟨[97], [49]⟩, ⟨[98], [50]⟩, ⟨[97], [51]⟩] [109])).bind
        kvlmSerialize
      ≠ Except.ok (encodeKvlm [⟨[97], [49]⟩, ⟨[98], [50]⟩, ⟨[97], [51]⟩] [109]) := by
  constructor
  · decide
  · decide

/-- Witness for C1: a concrete payload with a tree header, two adjacent parent
headers and a folded two-line header round-trips byte-for-byte. -/
theorem C1_kvlm_roundtrip_witness :
    (kvlmParse (encodeKvlm
        [(⟨[116, 114, 101, 101], [97, 98]⟩ : KvlmLine), ⟨[112], [49]⟩, ⟨[112], [50]⟩,
          ⟨[103], [45, 10, 32, 45]⟩] [109, 115, 103])).bind kvlmSerialize
      = Except.ok (encodeKvlm
        [(⟨[116, 114, 101, 101], [97, 98]⟩ : KvlmLine), ⟨[112], [49]⟩, ⟨[112], [50]⟩,
          ⟨[103], [45, 10, 32, 45]⟩] [109, 115, 103]) :=
  C1_kvlm_roundtrip _ _ (by decide) (by simp [keysGrouped, List.dropWhile])

theorem sortedInsert_ne_nil (key : GitTreeLeaf → PStr) (x : GitTreeLeaf)
    (l : List GitTreeLeaf) : sortedInsert key x l ≠ [] := by
  cases l with
  | nil => simp [sortedInsert]
  | cons y rest =>
    simp only [sortedInsert]
    by_cases h : pstrLt (key y) (key x) = true
    · simp [h]
    · simp [h]

/-- C2 is a code bug: the tree serializer reads its accumulator before the
first assignment, so serializing any tree with at least one entry raises
UnboundLocalError instead of producing bytes; the claimed round trip
tree_serialize(tree_parse(tree_serialize(t))) cannot even start. -/
theorem C2_tree_serialize_crashes (t : List GitTreeLeaf) (h : t ≠ []) :
    tree_serialize t = Except.error "UnboundLocalError in tree_serialize" := by
  rw [tree_serialize]
  obtain ⟨x, rest, hx⟩ : ∃ x rest, t = x :: rest := by
    rcases t with _ | ⟨x, rest⟩
    · exact absurd rfl h
    · exact ⟨x, rest, rfl⟩
  subst hx
  simp only [pySort]
  obtain ⟨y, l2, hy⟩ : ∃ y l2, sortedInsert tree_leaf_sort_key x
      (pySort tree_leaf_sort_key rest) = y :: l2 := by
    rcases hs : sortedInsert tree_leaf_sort_key x (pySort tree_leaf_sort_key rest) with _ | ⟨y, l2⟩
    · exact absurd hs (sortedInsert_ne_nil _ _ _)
    · exact ⟨y, l2, rfl⟩
  rw [hy]
  rfl

/-- Witness for C2: a concrete one-entry tree makes tree_serialize raise. -/
theorem C2_tree_serialize_crashes_witness :
    tree_serialize [⟨[49, 48, 48, 54, 52, 52], [97], natToHex40 0⟩]
      = Except.error "UnboundLocalError in tree_serialize" :=
  C2_tree_serialize_crashes _ (by simp)

/-- C7 as stated is false for the mode 120000: it begins with the character
1, so the claim assigns it the literal path as sort key, but the code only
checks for the two-byte lead "10" and appends a slash to the path. -/
theorem C7_counterexample :
    ([49] : Bytes).isPrefixOf [49, 50, 48, 48, 48, 48] = true ∧
    tree_leaf_sort_key ⟨[49, 50, 48, 48, 48, 48], [97], []⟩ = [97, 47] := by
  constructor
  · decide
  · decide

/-- C7 (amended): the sort key appends a trailing slash for every mode that
begins with the character 4 (directories), keeps the literal path exactly for
modes beginning with the two characters "10" (100644 and 100755), and also
appends the slash for the file-like modes 120000 and 160000. -/
theorem C7_tree_sort_key (m : Bytes) (p s : PStr) :
    (([52] : Bytes).isPrefixOf m = true → tree_leaf_sort_key ⟨m, p, s⟩ = p ++ [47]) ∧
    ((m = [49, 48, 48, 54, 52, 52] ∨ m = [49, 48, 48, 55, 53, 53]) →
      tree_leaf_sort_key ⟨m, p, s⟩ = p) ∧
    ((m = [49, 50, 48, 48, 48, 48] ∨ m = [49, 54, 48, 48, 48, 48]) →
      tree_leaf_sort_key ⟨m, p, s⟩ = p ++ [47]) := by
  refine ⟨?_, ?_, ?_⟩
  · intro h4
    obtain ⟨m2, hm⟩ : ∃ m2, m = 52 :: m2 := by
      rcases hmm : m with _ | ⟨c, m2⟩
      · rw [hmm] at h4
        simp [List.isPrefixOf] at h4
      · rw [hmm] at h4
        simp only [List.isPrefixOf, List.isPrefixOf_nil_left, Bool.and_true, beq_iff_eq] at h4
        exact ⟨m2, by rw [← h4]⟩
    rw [hm]
    simp [tree_leaf_sort_key, List.isPrefixOf]
  · intro hm
    rcases hm with hm | hm <;> rw [hm] <;> simp [tree_leaf_sort_key, List.isPrefixOf]
  · intro hm
    rcases hm with hm | hm <;> rw [hm] <;> simp [tree_leaf_sort_key, List.isPrefixOf]

/-- Witness for C7: the three cases of the amended sort-key rule at concrete
entries with mode 40000, 100644 and 120000. -/
theorem C7_tree_sort_key_witness :
    tree_leaf_sort_key ⟨[52, 48, 48, 48, 48], [97], []⟩ = [97, 47] ∧
    tree_leaf_sort_key ⟨[49, 48, 48, 54, 52, 52], [97], []⟩ = [97] ∧
    tree_leaf_sort_key ⟨[49, 50, 48, 48, 48, 48], [97], []⟩ = [97, 47] :=
  ⟨(C7_tree_sort_key [52, 48, 48, 48, 48] [97] []).1 (by decide),
    (C7_tree_sort_key [49, 48, 48, 54, 52, 52] [97] []).2.1 (Or.inl rfl),
    (C7_tree_sort_key [49, 50, 48, 48, 48, 48] [97] []).2.2 (Or.inl rfl)⟩

theorem contains_mono_append_wyag (l x : List PStr) (d : PStr)
    (h : l.contains d = true) : (l ++ x).contains d = true := by
  simp only [List.contains_eq_any_beq] at h ⊢
  rw [List.any_append, h]
  rfl

theorem contains_self_append_wyag (l : List PStr) (q : PStr) :
    (l ++ [q]).contains q = true := by
  simp [List.contains_eq_any_beq, List.any_append]

theorem dropLast_three_wyag (a b c : PStr) : ([a, b, c] : List PStr).dropLast = [a, b] := rfl

theorem mkdirsList_files (qs : List PStr) :
    ∀ (fs fs2 : FS), mkdirsList fs qs = Except.ok fs2 → fs2.files = fs.files := by
  induction qs with
  | nil =>
    intro fs fs2 hm
    simp only [mkdirsList] at hm
    cases hm
    rfl
  | cons q qs ih =>
    intro fs fs2 hm
    simp only [mkdirsList] at hm
    by_cases h1 : isdir fs q = true
    · rw [if_pos h1] at hm
      exact ih fs fs2 hm
    · rw [if_neg h1] at hm
      by_cases h2 : isfile fs q = true
      · rw [if_pos h2] at hm
        cases hm
      · rw [if_neg h2] at hm
        have h3 := ih _ fs2 hm
        exact h3

theorem mkdirsList_isdir_mono (qs : List PStr) :
    ∀ (fs fs2 : FS) (d : PStr), mkdirsList fs qs = Except.ok fs2 →
      isdir fs d = true → isdir fs2 d = true := by
  induction qs with
  | nil =>
    intro fs fs2 d hm hd
    simp only [mkdirsList] at hm
    cases hm
    exact hd
  | cons q qs ih =>
    intro fs fs2 d hm hd
    simp only [mkdirsList] at hm
    by_cases h1 : isdir fs q = true
    · rw [if_pos h1] at hm
      exact ih fs fs2 d hm hd
    · rw [if_neg h1] at hm
      by_cases h2 : isfile fs q = true
      · rw [if_pos h2] at hm
        cases hm
      · rw [if_neg h2] at hm
        apply ih _ fs2 d hm
        exact contains_mono_append_wyag fs.dirs [q] d hd

theorem mkdirsList_isdir_mem (qs : List PStr) :
    ∀ (fs fs2 : FS) (q : PStr), q ∈ qs → mkdirsList fs qs = Except.ok fs2 →
      isdir fs2 q = true := by
  induction qs with
  | nil =>
    intro fs fs2 q hq
    simp at hq
  | cons q0 qs ih =>
    intro fs fs2 q hq hm
    simp only [mkdirsList] at hm
    rcases List.mem_cons.mp hq with hq | hq
    · subst hq
      by_cases h1 : isdir fs q = true
      · rw [if_pos h1] at hm
        exact mkdirsList_isdir_mono qs fs fs2 q hm h1
      · rw [if_neg h1] at hm
        by_cases h2 : isfile fs q = true
        · rw [if_pos h2] at hm
          cases hm
        · rw [if_neg h2] at hm
          apply mkdirsList_isdir_mono qs _ fs2 q hm
          exact contains_self_append_wyag fs.dirs q
    · by_cases h1 : isdir fs q0 = true
      · rw [if_pos h1] at hm
        exact ih fs fs2 q hq hm
      · rw [if_neg h1] at hm
        by_cases h2 : isfile fs q0 = true
        · rw [if_pos h2] at hm
          cases hm
        · rw [if_neg h2] at hm
          exact ih _ fs2 q hq hm

theorem makedirs_isdir {fs fs2 : FS} {p : PStr} (hm : makedirs fs p = Except.ok fs2) :
    isdir fs2 p = true :=
  mkdirsList_isdir_mem (pathAncestors p) fs fs2 p
    (List.mem_append_right _ (List.mem_singleton.mpr rfl)) hm

theorem repo_dir_mk_isdir {repo : GitRepository} {fs fs2 : FS} {path : List PStr} {p : PStr}
    (hm : repo_dir_mk repo fs path = Except.ok (some p, fs2)) :
    p = repo_path repo path ∧ isdir fs2 p = true := by
  rw [repo_dir_mk] at hm
  by_cases h1 : pathExists fs (repo_path repo path) = true
  · rw [if_pos h1] at hm
    by_cases h2 : isdir fs (repo_path repo path) = true
    · rw [if_pos h2] at hm
      cases hm
      exact ⟨rfl, h2⟩
    · rw [if_neg h2] at hm
      cases hm
  · rw [if_neg h1] at hm
    cases hmk : makedirs fs (repo_path repo path) with
    | error e =>
      rw [hmk] at hm
      cases hm
    | ok fs3 =>
      rw [hmk] at hm
      cases hm
      exact ⟨rfl, makedirs_isdir hmk⟩

theorem fsLookup_append_self (l : List (PStr × Bytes)) (ds : List PStr) (p : PStr) (c : Bytes)
    (hl : fsLookup ⟨l, ds⟩ p = none) :
    fsLookup ⟨l ++ [(p, c)], ds⟩ p = some c := by
  induction l with
  | nil => simp [fsLookup, List.find?]
  | cons q t ih =>
    simp only [fsLookup, List.cons_append, List.find?] at hl ⊢
    by_cases hq : (q.1 == p) = true
    · rw [hq] at hl
      simp at hl
    · simp only [Bool.not_eq_true] at hq
      rw [hq] at hl ⊢
      exact ih hl

theorem repo_dir_mk_some {repo : GitRepository} {fs fs2 : FS} {path : List PStr} {p : PStr}
    (hm : repo_dir_mk repo fs path = Except.ok (some p, fs2)) :
    p = repo_path repo path ∧ isdir fs2 p = true := by
  rw [repo_dir_mk] at hm
  by_cases h1 : pathExists fs (repo_path repo path) = true
  · rw [if_pos h1] at hm
    by_cases h2 : isdir fs (repo_path repo path) = true
    · rw [if_pos h2] at hm
      cases hm
      exact ⟨rfl, h2⟩
    · rw [if_neg h2] at hm
      cases hm
  · rw [if_neg h1] at hm
    cases hmk : makedirs fs (repo_path repo path) with
    | error e =>
      rw [hmk] at hm
      cases hm
    | ok fs3 =>
      rw [hmk] at hm
      cases hm
      exact ⟨rfl, makedirs_isdir hmk⟩

theorem repo_file_mk_some {repo : GitRepository} {fs fs2 : FS} {a b c : PStr} {p : PStr}
    (hm : repo_file_mk repo fs [a, b, c] = Except.ok (some p, fs2)) :
    p = repo_path repo [a, b, c] ∧ isdir fs2 (repo_path repo [a, b]) = true := by
  rw [repo_file_mk, dropLast_three_wyag] at hm
  cases hdk : repo_dir_mk repo fs [a, b] with
  | error e =>
    rw [hdk] at hm
    cases hm
  | ok pr =>
    rcases pr with ⟨o, fs3⟩
    rcases o with _ | p2
    · rw [hdk] at hm
      cases hm
    · rw [hdk] at hm
      cases hm
      obtain ⟨hp2, hd2⟩ := repo_dir_mk_some hdk
      exact ⟨rfl, hp2 ▸ hd2⟩

theorem object_write_some {hashHex : Bytes → PStr} {compress : Bytes → Bytes}
    {obj : GitObject} {data : Bytes} {repo : GitRepository} {fs fs1 : FS} {sha : PStr}
    (hser : objSerialize obj = Except.ok data)
    (hw : object_write hashHex compress obj (some repo) fs = Except.ok (sha, fs1)) :
    sha = hashHex (envelope (objFmt obj) data) ∧
    isdir fs1 (repo_path repo [objectsDir, sha.take 2]) = true ∧
    pathExists fs1 (repo_path repo [objectsDir, sha.take 2, sha.drop 2]) = true := by
  simp only [object_write, hser] at hw
  cases hmk : repo_file_mk repo fs
      [objectsDir, (hashHex (envelope (objFmt obj) data)).take 2,
        (hashHex (envelope (objFmt obj) data)).drop 2] with
  | error e =>
    simp only [hmk] at hw
    cases hw
  | ok pr =>
    rcases pr with ⟨o, fs2⟩
    rcases o with _ | p
    · simp only [hmk] at hw
      cases hw
    · simp only [hmk] at hw
      obtain ⟨hp, hdir2⟩ := repo_file_mk_some hmk
      by_cases hex : pathExists fs2 p = true
      · rw [if_pos hex] at hw
        cases hw
        refine ⟨rfl, hdir2, ?_⟩
        rw [← hp]
        exact hex
      · rw [if_neg hex] at hw
        cases hw
        refine ⟨rfl, hdir2, ?_⟩
        have hlk : fsLookup fs2 p = none := by
          rcases hlk2 : fsLookup fs2 p with _ | c
          · rfl
          · exfalso
            apply hex
            simp [pathExists, isfile, hlk2]
        rcases fs2 with ⟨l2, d2⟩
        have hself := fsLookup_append_self l2 d2 p
          (compress (envelope (objFmt obj) data)) hlk
        rw [← hp]
        simp [pathExists, isfile, hself]

theorem object_write_again {hashHex : Bytes → PStr} {compress : Bytes → Bytes}
    {obj : GitObject} {data : Bytes} {repo : GitRepository} {fs1 : FS}
    (hser : objSerialize obj = Except.ok data)
    (hdir : isdir fs1 (repo_path repo
      [objectsDir, (hashHex (envelope (objFmt obj) data)).take 2]) = true)
    (hex : pathExists fs1 (repo_path repo
      [objectsDir, (hashHex (envelope (objFmt obj) data)).take 2,
        (hashHex (envelope (objFmt obj) data)).drop 2]) = true) :
    object_write hashHex compress obj (some repo) fs1
      = Except.ok (hashHex (envelope (objFmt obj) data), fs1) := by
  have hdmk : repo_dir_mk repo fs1
      [objectsDir, (hashHex (envelope (objFmt obj) data)).take 2]
      = Except.ok (some (repo_path repo
          [objectsDir, (hashHex (envelope (objFmt obj) data)).take 2]), fs1) := by
    rw [repo_dir_mk]
    have hpe : pathExists fs1 (repo_path repo
        [objectsDir, (hashHex (envelope (objFmt obj) data)).take 2]) = true := by
      simp only [pathExists, hdir, Bool.or_true]
    rw [if_pos hpe, if_pos hdir]
  have hmk : repo_file_mk repo fs1
      [objectsDir, (hashHex (envelope (objFmt obj) data)).take 2,
        (hashHex (envelope (objFmt obj) data)).drop 2]
      = Except.ok (some (repo_path repo
          [objectsDir, (hashHex (envelope (objFmt obj) data)).take 2,
            (hashHex (envelope (objFmt obj) data)).drop 2]), fs1) := by
    rw [repo_file_mk, dropLast_three_wyag, hdmk]
  simp only [object_write, hser, hmk]
  rw [if_pos hex]

/-- C3 (amended): for every object whose serializer succeeds, any completed
object_write returns the hex digest of the uncompressed envelope, for every
repository argument and filesystem alike; and a second write of the same
object right after a completed write returns the same id and leaves the
filesystem untouched (no new file, no new directory). -/
theorem C3_object_write_digest (hashHex : Bytes → PStr) (compress : Bytes → Bytes)
    (obj : GitObject) (data : Bytes) (hser : objSerialize obj = Except.ok data) :
    (∀ (repo : Option GitRepository) (fs : FS) (r : PStr × FS),
        object_write hashHex compress obj repo fs = Except.ok r →
        r.1 = hashHex (envelope (objFmt obj) data)) ∧
    (∀ (repo : GitRepository) (fs fs1 : FS) (sha : PStr),
        object_write hashHex compress obj (some repo) fs = Except.ok (sha, fs1) →
        object_write hashHex compress obj (some repo) fs1 = Except.ok (sha, fs1)) := by
  constructor
  · intro repo fs r hw
    cases repo with
    | none =>
      simp only [object_write, hser] at hw
      cases hw
      rfl
    | some repo =>
      rcases r with ⟨sha, fs1⟩
      obtain ⟨hsha, _, _⟩ := object_write_some hser hw
      exact hsha
  · intro repo fs fs1 sha hw
    obtain ⟨hsha, hdir, hex⟩ := object_write_some hser hw
    subst hsha
    exact object_write_again hser hdir hex

/-- Witness for C3: writing a two-byte blob into an empty filesystem under a
concrete repository returns the digest and a second write changes nothing. -/
theorem C3_object_write_digest_witness :
    ((object_write (fun _ => [97, 98]) (fun b => b) (GitObject.blob [104, 105])
        (some ⟨[119], [119, 47, 46, 103, 105, 116]⟩) ⟨[], []⟩).map Prod.fst
      = Except.ok ((fun (_ : Bytes) => [97, 98]) (envelope (objFmt (GitObject.blob [104, 105]))
          [104, 105]))) ∧
    (∀ (fs1 : FS) (sha : PStr),
      object_write (fun _ => [97, 98]) (fun b => b) (GitObject.blob [104, 105])
          (some ⟨[119], [119, 47, 46, 103, 105, 116]⟩) ⟨[], []⟩ = Except.ok (sha, fs1) →
      object_write (fun _ => [97, 98]) (fun b => b) (GitObject.blob [104, 105])
          (some ⟨[119], [119, 47, 46, 103, 105, 116]⟩) fs1 = Except.ok (sha, fs1)) := by
  constructor
  · have h1 := (C3_object_write_digest (fun _ => [97, 98]) (fun b => b)
      (GitObject.blob [104, 105]) [104, 105] rfl).1
    cases hw : object_write (fun _ => [97, 98]) (fun b => b) (GitObject.blob [104, 105])
        (some ⟨[119], [119, 47, 46, 103, 105, 116]⟩) ⟨[], []⟩ with
    | error e => cases hw
    | ok r =>
      simp only [Except.map]
      rw [h1 (some ⟨[119], [119, 47, 46, 103, 105, 116]⟩) ⟨[], []⟩ r hw]
  · intro fs1 sha hw
    exact (C3_object_write_digest (fun _ => [97, 98]) (fun b => b)
      (GitObject.blob [104, 105]) [104, 105] rfl).2
      ⟨[119], [119, 47, 46, 103, 105, 116]⟩ ⟨[], []⟩ fs1 sha hw

/-- C3 as stated is false for a non-empty tree object: serialization raises
before any id is computed, so object_write raises instead of returning the
digest. -/
theorem C3_counterexample :
    object_write (fun _ => []) (fun b => b)
        (GitObject.tree [⟨[49, 48, 48, 54, 52, 52], [97], natToHex40 0⟩]) none ⟨[], []⟩
      = Except.error "UnboundLocalError in tree_serialize" := by decide

/-- C9: object_write with repo None (hash-object without -w) computes and
returns the envelope digest and leaves the filesystem exactly as it was: no
directory is created and no file is written. -/
theorem C9_object_write_no_repo (hashHex : Bytes → PStr) (compress : Bytes → Bytes)
    (obj : GitObject) (data : Bytes) (fs : FS) (hser : objSerialize obj = Except.ok data) :
    object_write hashHex compress obj none fs
      = Except.ok (hashHex (envelope (objFmt obj) data), fs) := by
  rw [object_write, hser]

/-- Witness for C9: hashing a blob without a repository leaves a concrete
filesystem unchanged. -/
theorem C9_object_write_no_repo_witness :
    object_write (fun _ => [97]) (fun b => b) (GitObject.blob [104, 105]) none
        ⟨[([47, 102], [1])], [[47, 100]]⟩
      = Except.ok ((fun (_ : Bytes) => [97]) (envelope (objFmt (GitObject.blob [104, 105]))
          [104, 105]), ⟨[([47, 102], [1])], [[47, 100]]⟩) :=
  C9_object_write_no_repo (fun _ => [97]) (fun b => b) (GitObject.blob [104, 105])
    [104, 105] ⟨[([47, 102], [1])], [[47, 100]]⟩ rfl

theorem stripSpace_digits {digits : PStr} (hdigok : ∀ d ∈ digits, 48 ≤ d ∧ d ≤ 57) :
    pyStripSpace (32 :: digits) = digits := by
  rw [pyStripSpace]
  have h1 : List.dropWhile (fun c => c == 32) (32 :: digits)
      = List.dropWhile (fun c => c == 32) digits := by
    simp [List.dropWhile]
  have h2 : List.dropWhile (fun c => c == 32) digits = digits := by
    cases digits with
    | nil => rfl
    | cons d t =>
      have hdv := hdigok d (List.mem_cons_self d t)
      rw [List.dropWhile_cons_of_neg]
      simp only [beq_iff_eq]
      omega
  have h3 : List.dropWhile (fun c => c == 32) digits.reverse = digits.reverse := by
    cases hrev : digits.reverse with
    | nil => rfl
    | cons d t =>
      have hdmem : d ∈ digits := by
        rw [← List.mem_reverse, hrev]
        exact List.mem_cons_self d t
      have hdv := hdigok d hdmem
      rw [List.dropWhile_cons_of_neg]
      simp only [beq_iff_eq]
      omega
  rw [h1, h2, h3, List.reverse_reverse]

theorem object_read_envelope (decompress : Bytes → Bytes) (repo : GitRepository) (fs : FS)
    (sha : PStr) (c : Bytes) (fmtB digits payload : Bytes)
    (hd : isdir fs (repo_path repo [objectsDir, sha.take 2]) = true)
    (hc : fsLookup fs (repo_path repo [objectsDir, sha.take 2, sha.drop 2]) = some c)
    (hraw : decompress c = fmtB ++ 32 :: (digits ++ 0 :: payload))
    (hfmt32 : ∀ b ∈ fmtB, b ≠ 32) (hdig : digits ≠ [])
    (hdigok : ∀ d ∈ digits, 48 ≤ d ∧ d ≤ 57) :
    object_read decompress repo fs sha =
      if (decimalVal digits : Int) ≠ (payload.length : Int) then
        Except.error "Malformed object: bad length"
      else if fmtB = [99, 111, 109, 109, 105, 116] then
        (kvlmParse payload).map (fun kv => some (GitObject.commit kv))
      else if fmtB = [116, 114, 101, 101] then
        (tree_parse payload).map (fun items => some (GitObject.tree items))
      else if fmtB = [116, 97, 103] then
        (kvlmParse payload).map (fun kv => some (GitObject.tag kv))
      else if fmtB = [98, 108, 111, 98] then
        Except.ok (some (GitObject.blob payload))
      else Except.error "Unknown type for object" := by
  have hrf : repo_file_ro repo fs [objectsDir, sha.take 2, sha.drop 2]
      = Except.ok (some (repo_path repo [objectsDir, sha.take 2, sha.drop 2])) := by
    rw [repo_file_ro, dropLast_three_wyag, repo_dir_ro]
    have hpe : pathExists fs (repo_path repo [objectsDir, sha.take 2]) = true := by
      simp [pathExists, hd]
    rw [if_pos hpe, if_pos hd]
  simp only [object_read, hrf, hc, hraw]
  have hdrop0 : (fmtB ++ 32 :: (digits ++ 0 :: payload)).drop 0
      = fmtB ++ 32 :: (digits ++ 0 :: payload) := List.drop_zero _
  have hx : pyFind (fmtB ++ 32 :: (digits ++ 0 :: payload)) 32 0 = (fmtB.length : Int) := by
    rw [pyFind_hit hdrop0 hfmt32]
    simp
  rw [hx]
  have hdropFmt : (fmtB ++ 32 :: (digits ++ 0 :: payload)).drop fmtB.length
      = (32 :: digits) ++ 0 :: payload := by
    have h0 : fmtB ++ 32 :: (digits ++ 0 :: payload)
        = fmtB ++ ((32 :: digits) ++ 0 :: payload) := by simp
    rw [h0, List.drop_left]
  have hu0 : ∀ b ∈ (32 :: digits), b ≠ 0 := by
    intro b hb
    rcases List.mem_cons.mp hb with hb | hb
    · omega
    · have := hdigok b hb
      omega
  have hy : pyFindI (fmtB ++ 32 :: (digits ++ 0 :: payload)) 0 (fmtB.length : Int)
      = (fmtB.length : Int) + ((digits.length + 1 : Nat) : Int) := by
    rw [pyFindI, if_neg (by omega : ¬((fmtB.length : Int) < 0))]
    have htn : ((fmtB.length : Int)).toNat = fmtB.length := by omega
    rw [htn, pyFind_hit hdropFmt hu0]
    simp
  rw [hy]
  have hfmtSlice : pySliceI (fmtB ++ 32 :: (digits ++ 0 :: payload)) 0 (fmtB.length : Int)
      = fmtB := by
    have h1 := pySliceI_natCast (fmtB ++ 32 :: (digits ++ 0 :: payload)) 0 fmtB.length
    rw [Nat.cast_zero] at h1
    rw [h1, List.drop_zero, Nat.sub_zero, List.take_left]
  rw [hfmtSlice]
  have hsizeSlice : pySliceI (fmtB ++ 32 :: (digits ++ 0 :: payload)) (fmtB.length : Int)
      ((fmtB.length : Int) + ((digits.length + 1 : Nat) : Int)) = 32 :: digits := by
    have h1 := pySliceI_of_drop (u := 32 :: digits) (v := 0 :: payload) hdropFmt
    simp only [List.length_cons] at h1
    exact h1
  rw [hsizeSlice]
  have hascii : asciiDecode (32 :: digits) = Except.ok (32 :: digits) := by
    rw [asciiDecode, if_pos]
    rw [List.all_eq_true]
    intro d hdm
    rcases List.mem_cons.mp hdm with hdm | hdm
    · subst hdm
      decide
    · have := hdigok d hdm
      simp
      omega
  simp only [hascii]
  have hint : pyIntDec (32 :: digits) = Except.ok (decimalVal digits) := by
    rw [pyIntDec]
    simp only [stripSpace_digits hdigok]
    rw [if_pos ⟨hdig, hdigok⟩]
    rfl
  simp only [hint]
  have hlen : ((fmtB ++ 32 :: (digits ++ 0 :: payload)).length : Int)
      - ((fmtB.length : Int) + ((digits.length + 1 : Nat) : Int)) - 1
      = (payload.length : Int) := by
    simp only [List.length_append, List.length_cons]
    push_cast
    ring
  rw [hlen]
  have hpaySlice : pySliceI (fmtB ++ 32 :: (digits ++ 0 :: payload))
      ((fmtB.length : Int) + ((digits.length + 1 : Nat) : Int) + 1)
      ((fmtB ++ 32 :: (digits ++ 0 :: payload)).length : Int) = payload := by
    have hcast : (fmtB.length : Int) + ((digits.length + 1 : Nat) : Int) + 1
        = ((fmtB.length + digits.length + 2 : Nat) : Int) := by
      push_cast
      ring
    rw [hcast]
    have h1 := pySliceI_natCast (fmtB ++ 32 :: (digits ++ 0 :: payload))
      (fmtB.length + digits.length + 2) (fmtB ++ 32 :: (digits ++ 0 :: payload)).length
    rw [h1]
    have hdropPay : (fmtB ++ 32 :: (digits ++ 0 :: payload)).drop
        (fmtB.length + digits.length + 2) = payload := by
      have h0 : fmtB ++ 32 :: (digits ++ 0 :: payload)
          = (fmtB ++ 32 :: digits ++ [0]) ++ payload := by simp
      rw [h0, List.drop_left' (by simp [List.length_append]; omega)]
    rw [hdropPay]
    have hlen2 : (fmtB ++ 32 :: (digits ++ 0 :: payload)).length
        - (fmtB.length + digits.length + 2) = payload.length := by
      simp only [List.length_append, List.length_cons]
      omega
    rw [hlen2, List.take_length]
  rw [hpaySlice]

/-- C4: object_read returns the sentinel None when no loose file exists at
objects/<id02>/<id2:>, and instead raises a fatal error, never returning
None, when the file exists but the envelope is malformed: a declared
ASCII-decimal payload length differing from the actual payload length, or a
type tag that is none of blob, tree, commit, tag. -/
theorem C4_object_read_errors (decompress : Bytes → Bytes) (repo : GitRepository) (fs : FS)
    (sha : PStr) :
    (isfile fs (repo_path repo [objectsDir, sha.take 2]) = false →
      fsLookup fs (repo_path repo [objectsDir, sha.take 2, sha.drop 2]) = none →
      object_read decompress repo fs sha = Except.ok none) ∧
    (∀ (c fmtB digits payload : Bytes),
      isdir fs (repo_path repo [objectsDir, sha.take 2]) = true →
      fsLookup fs (repo_path repo [objectsDir, sha.take 2, sha.drop 2]) = some c →
      decompress c = fmtB ++ 32 :: (digits ++ 0 :: payload) →
      (∀ b ∈ fmtB, b ≠ 32) → digits ≠ [] → (∀ d ∈ digits, 48 ≤ d ∧ d ≤ 57) →
      decimalVal digits ≠ payload.length →
      object_read decompress repo fs sha = Except.error "Malformed object: bad length") ∧
    (∀ (c fmtB digits payload : Bytes),
      isdir fs (repo_path repo [objectsDir, sha.take 2]) = true →
      fsLookup fs (repo_path repo [objectsDir, sha.take 2, sha.drop 2]) = some c →
      decompress c = fmtB ++ 32 :: (digits ++ 0 :: payload) →
      (∀ b ∈ fmtB, b ≠ 32) → digits ≠ [] → (∀ d ∈ digits, 48 ≤ d ∧ d ≤ 57) →
      decimalVal digits = payload.length →
      fmtB ≠ [99, 111, 109, 109, 105, 116] → fmtB ≠ [116, 114, 101, 101] →
      fmtB ≠ [116, 97, 103] → fmtB ≠ [98, 108, 111, 98] →
      object_read decompress repo fs sha = Except.error "Unknown type for object") := by
  refine ⟨?_, ?_, ?_⟩
  · intro h1 h2
    by_cases hdp : isdir fs (repo_path repo [objectsDir, sha.take 2]) = true
    · have hrf : repo_file_ro repo fs [objectsDir, sha.take 2, sha.drop 2]
          = Except.ok (some (repo_path repo [objectsDir, sha.take 2, sha.drop 2])) := by
        rw [repo_file_ro, dropLast_three_wyag, repo_dir_ro]
        have hpe : pathExists fs (repo_path repo [objectsDir, sha.take 2]) = true := by
          simp [pathExists, hdp]
        rw [if_pos hpe, if_pos hdp]
      simp only [object_read, hrf, h2]
    · have hrf : repo_file_ro repo fs [objectsDir, sha.take 2, sha.drop 2]
          = Except.ok none := by
        rw [repo_file_ro, dropLast_three_wyag, repo_dir_ro]
        have hpe : pathExists fs (repo_path repo [objectsDir, sha.take 2]) = false := by
          simp only [pathExists, h1, Bool.false_or]
          simpa using hdp
        rw [if_neg (by simp [hpe])]
      simp only [object_read, hrf]
  · intro c fmtB digits payload hdp hc hraw hfmt32 hdig hdigok hne
    rw [object_read_envelope decompress repo fs sha c fmtB digits payload hdp hc hraw
      hfmt32 hdig hdigok]
    rw [if_pos (by exact_mod_cast hne)]
  · intro c fmtB digits payload hdp hc hraw hfmt32 hdig hdigok heq hn1 hn2 hn3 hn4
    rw [object_read_envelope decompress repo fs sha c fmtB digits payload hdp hc hraw
      hfmt32 hdig hdigok]
    rw [if_neg (by rw [heq]; simp), if_neg hn1, if_neg hn2, if_neg hn3, if_neg hn4]

/-- Witness for C4: a missing loose object returns None; a stored envelope
"blob 5" with a 3-byte payload raises the bad-length error; a stored
envelope with the unknown tag "blub" and a correct length raises the
unknown-type error. -/
theorem C4_object_read_errors_witness :
    object_read (fun b => b) ⟨[119], [103]⟩ ⟨[], []⟩ [97, 98, 99, 100] = Except.ok none ∧
    object_read (fun b => b) ⟨[119], [103]⟩
        ⟨[(repo_path ⟨[119], [103]⟩ [objectsDir, [97, 98], [99, 100]],
          [98, 108, 111, 98, 32, 53, 0, 97, 98, 99])],
         [repo_path ⟨[119], [103]⟩ [objectsDir, [97, 98]]]⟩ [97, 98, 99, 100]
      = Except.error "Malformed object: bad length" ∧
    object_read (fun b => b) ⟨[119], [103]⟩
        ⟨[(repo_path ⟨[119], [103]⟩ [objectsDir, [97, 98], [99, 100]],
          [98, 108, 117, 98, 32, 51, 0, 97, 98, 99])],
         [repo_path ⟨[119], [103]⟩ [objectsDir, [97, 98]]]⟩ [97, 98, 99, 100]
      = Except.error "Unknown type for object" :=
  ⟨(C4_object_read_errors (fun b => b) ⟨[119], [103]⟩ ⟨[], []⟩ [97, 98, 99, 100]).1
      (by decide) (by decide),
    (C4_object_read_errors (fun b => b) ⟨[119], [103]⟩
        ⟨[(repo_path ⟨[119], [103]⟩ [objectsDir, [97, 98], [99, 100]],
          [98, 108, 111, 98, 32, 53, 0, 97, 98, 99])],
         [repo_path ⟨[119], [103]⟩ [objectsDir, [97, 98]]]⟩ [97, 98, 99, 100]).2.1
      [98, 108, 111, 98, 32, 53, 0, 97, 98, 99] [98, 108, 111, 98] [53] [97, 98, 99]
      (by decide) (by decide) (by decide) (by decide) (by decide) (by decide) (by decide),
    (C4_object_read_errors (fun b => b) ⟨[119], [103]⟩
        ⟨[(repo_path ⟨[119], [103]⟩ [objectsDir, [97, 98], [99, 100]],
          [98, 108, 117, 98, 32, 51, 0, 97, 98, 99])],
         [repo_path ⟨[119], [103]⟩ [objectsDir, [97, 98]]]⟩ [97, 98, 99, 100]).2.2
      [98, 108, 117, 98, 32, 51, 0, 97, 98, 99] [98, 108, 117, 98] [51] [97, 98, 99]
      (by decide) (by decide) (by decide) (by decide) (by decide) (by decide) (by decide)
      (by decide) (by decide) (by decide) (by decide)⟩

/-- C10: with a gitdir that exists but holds no index file, index_read
returns an empty GitIndex with version 2 and zero entries instead of
failing. -/
theorem C10_index_read_empty (repo : GitRepository) (fs : FS)
    (hg : isdir fs repo.gitdir = true)
    (hn : pathExists fs (repo_path repo [indexName]) = false) :
    index_read repo fs = Except.ok ⟨2, []⟩ := by
  have hrf : repo_file_ro repo fs [indexName]
      = Except.ok (some (repo_path repo [indexName])) := by
    rw [repo_file_ro]
    have hdl : ([indexName] : List PStr).dropLast = [] := rfl
    rw [hdl, repo_dir_ro]
    have hgp : repo_path repo [] = repo.gitdir := rfl
    have hpe : pathExists fs (repo_path repo []) = true := by
      rw [hgp]; simp [pathExists, hg]
    rw [if_pos hpe, hgp, if_pos hg]
  simp only [index_read, hrf, hn, if_true]

/-- Witness for C10: a filesystem holding only the gitdir directory g yields
the empty version-2 index. -/
theorem C10_index_read_empty_witness :
    index_read ⟨[119], [103]⟩ ⟨[], [[103]]⟩ = Except.ok ⟨2, []⟩ :=
  C10_index_read_empty ⟨[119], [103]⟩ ⟨[], [[103]]⟩ (by decide) (by decide)

/-- C5 counterexample: an entry whose stored id differs from the blob hash
of the worktree content is not reported as modified when the stat
nanosecond timestamps equal the index timestamps, because the hash is only
computed after a timestamp mismatch. -/
theorem C5_counterexample :
    status_entry_modified (fun b => b) (fun b => b)
        ⟨5000000000, 6000000000⟩ [97] ⟨[], []⟩
        ⟨(5, 0), (6, 0), 0, 0, 8, 420, 0, 0, 1, [49], false, 0, [97]⟩
      = Except.ok false ∧
    object_hash_blob (fun b => b) (fun b => b) [97] ⟨[], []⟩
      = Except.ok ([98, 108, 111, 98, 32, 49, 0, 97], ⟨[], []⟩) ∧
    ([49] : PStr) ≠ [98, 108, 111, 98, 32, 49, 0, 97] := by decide

/-- C5: corrected form — the entry is reported modified if and only if a
stat nanosecond timestamp differs from the index timestamps AND the blob
hash of the worktree content differs from the stored id; with equal
timestamps the content is never hashed and nothing is reported. -/
theorem C5_status_modified (hashHex : Bytes → PStr) (compress : Bytes → Bytes)
    (stat : PyStat) (data : Bytes) (fs : FS) (entry : GitIndexEntry) :
    status_entry_modified hashHex compress stat data fs entry = Except.ok true ↔
      ((stat.st_ctime_ns ≠ entry.ctime.1 * 10 ^ 9 + entry.ctime.2 ∨
        stat.st_mtime_ns ≠ entry.mtime.1 * 10 ^ 9 + entry.mtime.2) ∧
       entry.sha ≠ hashHex (envelope [98, 108, 111, 98] data)) := by
  simp only [status_entry_modified, object_hash_blob, object_write, objSerialize, objFmt]
  by_cases hts : stat.st_ctime_ns ≠ entry.ctime.1 * 10 ^ 9 + entry.ctime.2 ∨
      stat.st_mtime_ns ≠ entry.mtime.1 * 10 ^ 9 + entry.mtime.2
  · rw [if_pos hts]
    simp only [Except.ok.injEq, Bool.not_eq_eq_eq_not, Bool.not_true, beq_eq_false_iff_ne]
    constructor
    · intro h; exact ⟨hts, h⟩
    · intro h; exact h.2
  · rw [if_neg hts]
    constructor
    · intro h; cases h
    · intro h; exact absurd h.1 hts

theorem dropWhile_eq_self_wyag (p : Nat → Bool) (s : List Nat)
    (h : ∀ c ∈ s, p c = false) : s.dropWhile p = s := by
  cases s with
  | nil => rfl
  | cons a l =>
    rw [List.dropWhile_cons, h a (List.mem_cons_self a l)]
    simp

theorem pyStrip_id (s : PStr) (h : ∀ c ∈ s, isSpaceChar c = false) : pyStrip s = s := by
  rw [pyStrip, dropWhile_eq_self_wyag _ _ h]
  rw [dropWhile_eq_self_wyag _ _ (fun c hc => h c (List.mem_reverse.mp hc))]
  exact List.reverse_reverse s

theorem pyLower_id (s : PStr) (h : ∀ c ∈ s, ¬ (65 ≤ c ∧ c ≤ 90)) : pyLower s = s := by
  induction s with
  | nil => rfl
  | cons a l ih =>
    rw [pyLower, List.map_cons, if_neg (h a (List.mem_cons_self a l))]
    congr 1
    exact ih (fun c hc => h c (List.mem_cons_of_mem a hc))

theorem pySliceI_take2_wyag (l : Bytes) : pySliceI l 0 2 = l.take 2 := by
  have h := pySliceI_natCast l 0 2
  norm_num at h
  exact h

/-- C6: resolving the full 40-character lowercase hex form of an object id
whose loose file exists in the store, when exactly that file matches the
remaining 38 characters and no tag, branch or remote ref shares the name,
returns exactly that id as the unique candidate. -/
theorem C6_object_resolve_full_hex (repo : GitRepository) (fs : FS) (fuel : Nat)
    (name : PStr)
    (hlen : name.length = 40)
    (hhex : ∀ c ∈ name, (48 ≤ c ∧ c ≤ 57) ∨ (97 ≤ c ∧ c ≤ 102))
    (hdir : repo_dir_ro repo fs [objectsDir, name.take 2]
      = Except.ok (some (repo_path repo [objectsDir, name.take 2])))
    (hpne : repo_path repo [objectsDir, name.take 2] ≠ [])
    (hlist : (listdir fs (repo_path repo [objectsDir, name.take 2])).filter
        (fun f => (name.drop 2).isPrefixOf f) = [name.drop 2])
    (htag : ref_resolve repo fs fuel
        ([114, 101, 102, 115, 47, 116, 97, 103, 115, 47] ++ name) = Except.ok none)
    (hheads : ref_resolve repo fs fuel
        ([114, 101, 102, 115, 47, 104, 101, 97, 100, 115, 47] ++ name) = Except.ok none)
    (hremotes : ref_resolve repo fs fuel
        ([114, 101, 102, 115, 47, 114, 101, 109, 111, 116, 101, 115, 47] ++ name)
      = Except.ok none) :
    object_resolve repo fs fuel name = Except.ok (some [some name]) := by
  have hnws : ∀ c ∈ name, isSpaceChar c = false := by
    intro c hc
    have h9 : 48 ≤ c := by rcases hhex c hc with h | h <;> omega
    simp only [isSpaceChar, Bool.or_eq_false_iff, decide_eq_false_iff_not]
    omega
  have hne : ¬ (name = []) := by
    intro h; rw [h] at hlen; exact absurd hlen (by decide)
  have hnh : ¬ (name = [72, 69, 65, 68]) := by
    intro h; rw [h] at hlen; exact absurd hlen (by decide)
  have hlow : pyLower name = name :=
    pyLower_id name (fun c hc => by rcases hhex c hc with h | h <;> omega)
  have hRE : hashREMatch name = true := by
    simp only [hashREMatch, isHexChar, hlen, Bool.and_eq_true, decide_eq_true_eq,
      List.all_eq_true, Bool.or_eq_true]
    refine ⟨⟨by omega, by omega⟩, ?_⟩
    intro c hc
    rcases hhex c hc with h | h
    · exact Or.inl (Or.inl h)
    · exact Or.inr h
  simp only [object_resolve]
  rw [pyStrip_id name hnws]
  rw [if_neg hne, if_neg hnh, if_pos hRE, hlow, pySliceI_take2_wyag]
  simp only [hdir]
  rw [if_pos hpne, hlist]
  simp only [List.map_cons, List.map_nil, List.take_append_drop, htag, hheads, hremotes]

/-- Witness for C6: in a store holding exactly the loose file for the id of
40 repeated a characters and no refs, object_resolve returns that id. -/
theorem C6_object_resolve_full_hex_witness :
    object_resolve ⟨[119], [103]⟩
      ⟨[((repo_path ⟨[119], [103]⟩ [objectsDir, List.replicate 2 97]) ++
          47 :: List.replicate 38 97, [])],
       [[103], repo_path ⟨[119], [103]⟩ [objectsDir, List.replicate 2 97]]⟩
      1 (List.replicate 40 97)
    = Except.ok (some [some (List.replicate 40 97)]) :=
  C6_object_resolve_full_hex ⟨[119], [103]⟩
    ⟨[((repo_path ⟨[119], [103]⟩ [objectsDir, List.replicate 2 97]) ++
        47 :: List.replicate 38 97, [])],
     [[103], repo_path ⟨[119], [103]⟩ [objectsDir, List.replicate 2 97]]⟩
    1 (List.replicate 40 97)
    (by decide) (by decide) (by decide) (by decide) (by decide) (by decide) (by decide)
    (by decide)

theorem find?_append_wyag (p : (PStr × Bool) → Bool) (l1 l2 : IgnoreRules) :
    (l1 ++ l2).find? p
      = match l1.find? p with
        | some x => some x
        | none => l2.find? p := by
  induction l1 with
  | nil => simp [List.find?]
  | cons a l ih =>
    rw [List.cons_append]
    by_cases h : p a = true
    · rw [List.find?_cons_of_pos _ h, List.find?_cons_of_pos _ h]
    · rw [List.find?_cons_of_neg _ h, List.find?_cons_of_neg _ h, ih]

theorem match_paths_fold (fnm : PStr → PStr → Bool) (path : PStr) (rules : IgnoreRules) :
    ∀ acc : Option Bool,
      rules.foldl (fun result r => if fnm path r.1 then some r.2 else result) acc
        = match rules.reverse.find? (fun r => fnm path r.1) with
          | some r => some r.2
          | none => acc := by
  induction rules with
  | nil => intro acc; rfl
  | cons r rest ih =>
    intro acc
    rw [List.foldl_cons, ih, List.reverse_cons, find?_append_wyag]
    cases hf : rest.reverse.find? (fun q => fnm path q.1) with
    | some q => rfl
    | none =>
      by_cases h : fnm path r.1 = true
      · simp [List.find?, h]
      · simp [List.find?, h]

theorem match_paths_eq (fnm : PStr → PStr → Bool) (rules : IgnoreRules) (path : PStr) :
    match_paths fnm rules path = specMatch fnm rules path := by
  rw [match_paths, specMatch, match_paths_fold]
  cases hf : rules.reverse.find? (fun r => fnm path r.1) with
  | some q => rfl
  | none => rfl

theorem dropWhile_suffix_wyag (p : Nat → Bool) (l : List Nat) :
    ∃ t, t ++ l.dropWhile p = l := by
  induction l with
  | nil => exact ⟨[], rfl⟩
  | cons a l ih =>
    rw [List.dropWhile_cons]
    by_cases h : p a = true
    · rw [if_pos h]
      obtain ⟨t, ht⟩ := ih
      exact ⟨a :: t, by rw [List.cons_append, ht]⟩
    · rw [if_neg h]
      exact ⟨[], rfl⟩

theorem dropWhile_head_false_wyag (p : Nat → Bool) (l : List Nat) (c : Nat) (d : List Nat)
    (h : l.dropWhile p = c :: d) : p c = false := by
  induction l with
  | nil => cases h
  | cons a l ih =>
    rw [List.dropWhile_cons] at h
    by_cases hp : p a = true
    · rw [if_pos hp] at h
      exact ih h
    · rw [if_neg hp] at h
      cases h
      simp only [Bool.not_eq_true] at hp
      exact hp

theorem pyDirname_step (p : PStr) (hne : p ≠ []) (hh : p.head? ≠ some 47) :
    ∃ t, t ≠ [] ∧ pyDirname p ++ t = p := by
  simp only [pyDirname]
  cases hd : p.reverse.dropWhile (fun c => !(c == 47)) with
  | nil =>
    simp only [List.reverse_nil]
    rw [if_neg (by simp)]
    exact ⟨p, hne, by simp⟩
  | cons c d =>
    have hc : c = 47 := by
      have h1 := dropWhile_head_false_wyag _ _ _ _ hd
      simpa using h1
    obtain ⟨u, hu⟩ := dropWhile_suffix_wyag (fun c => !(c == 47)) p.reverse
    rw [hd] at hu
    have hp : (c :: d).reverse ++ u.reverse = p := by
      have h2 := congrArg List.reverse hu
      rw [List.reverse_append, List.reverse_reverse] at h2
      exact h2
    have hhead : ((c :: d).reverse).head? = p.head? := by
      rw [← hp]
      cases hrev : (c :: d).reverse with
      | nil => exact absurd (congrArg List.length hrev) (by simp)
      | cons b bs => simp
    have hcond : ((c :: d).reverse ≠ [] ∧
        ¬ ((c :: d).reverse.all (fun x => x == 47))) := by
      refine ⟨by simp, ?_⟩
      intro hall
      cases hrev : (c :: d).reverse with
      | nil => exact absurd (congrArg List.length hrev) (by simp)
      | cons b bs =>
        rw [hrev] at hall
        rw [hrev] at hhead
        simp only [List.head?_cons] at hhead
        rw [List.all_cons, Bool.and_eq_true, beq_iff_eq] at hall
        exact hh (by rw [← hhead, hall.1])
    rw [if_pos hcond, List.reverse_reverse]
    rw [List.dropWhile_cons, if_pos (by simp [hc])]
    obtain ⟨w, hw⟩ := dropWhile_suffix_wyag (fun x => x == 47) d
    refine ⟨w.reverse ++ c :: u.reverse, by simp, ?_⟩
    have hd2 : (d.dropWhile (fun x => x == 47)).reverse ++ w.reverse = d.reverse := by
      rw [← List.reverse_append, hw]
    rw [← List.append_assoc, hd2, ← hp]
    simp

theorem pyDirname_lt (p : PStr) (hne : p ≠ []) (hh : p.head? ≠ some 47) :
    (pyDirname p).length < p.length ∧ (pyDirname p).head? ≠ some 47 := by
  obtain ⟨t, ht, heq⟩ := pyDirname_step p hne hh
  constructor
  · have h1 := congrArg List.length heq
    rw [List.length_append] at h1
    have ht2 : 0 < t.length := List.length_pos.mpr ht
    omega
  · intro hcon
    cases hq : pyDirname p with
    | nil => rw [hq] at hcon; cases hcon
    | cons b bs =>
      rw [hq] at hcon
      simp only [List.head?_cons, Option.some.injEq] at hcon
      rw [hq, List.cons_append] at heq
      rw [← heq] at hh
      simp only [List.head?_cons] at hh
      exact hh (by rw [hcon])

theorem check_ignore_scoped_go_ok (fnm : PStr → PStr → Bool)
    (rules : List (PStr × IgnoreRules)) (path : PStr) :
    ∀ (fuel : Nat) (parent : PStr), parent.length < fuel → parent.head? ≠ some 47 →
      check_ignore_scoped_go fnm rules path fuel parent
        = Except.ok ((parentChain fuel parent).findSome?
            (fun q => (dictFind rules q).bind (fun rs => specMatch fnm rs path))) := by
  intro fuel
  induction fuel with
  | zero => intro parent h _; omega
  | succ n ih =>
    intro parent hlt hh
    simp only [check_ignore_scoped_go, parentChain, match_paths_eq]
    by_cases hp : parent = []
    · subst hp
      rw [if_pos rfl, if_pos rfl]
      cases hf : (dictFind rules []).bind (fun rs => specMatch fnm rs path) with
      | some r => simp [List.findSome?_cons, hf]
      | none => simp [List.findSome?_cons, hf]
    · rw [if_neg hp, if_neg hp]
      obtain ⟨hdec, hdh⟩ := pyDirname_lt parent hp hh
      cases hf : (dictFind rules parent).bind (fun rs => specMatch fnm rs path) with
      | some r => simp [List.findSome?_cons, hf]
      | none =>
        rw [ih (pyDirname parent) (by omega) hdh]
        simp [List.findSome?_cons, hf]

theorem check_ignore_absolute_ok (fnm : PStr → PStr → Bool) (path : PStr) :
    ∀ rules : List IgnoreRules,
      check_ignore_absolute fnm rules path
        = (rules.findSome? (fun rs => specMatch fnm rs path)).getD false := by
  intro rules
  induction rules with
  | nil => rfl
  | cons rs rest ih =>
    rw [check_ignore_absolute, match_paths_eq, List.findSome?_cons]
    cases hf : specMatch fnm rs path with
    | some r => rfl
    | none => exact ih

/-- C8: for a relative path, check_ignore computes the claimed cascade: the
last matching rule of a list decides that list; the scoped lists are
consulted from the deepest parent directory upward and the first scope with
a matching rule is final; only then are the absolute lists consulted in
order, defaulting to not ignored. -/
theorem C8_check_ignore (fnm : PStr → PStr → Bool) (gia : List IgnoreRules)
    (gis : List (PStr × IgnoreRules)) (path : PStr) (fuel : Nat)
    (hrel : pyIsAbs path = false)
    (hfuel : path.length < fuel) :
    check_ignore fnm ⟨gia, gis⟩ fuel path
      = Except.ok (((parentChain fuel (pyDirname path)).findSome?
            (fun q => (dictFind gis q).bind (fun rs => specMatch fnm rs path))).getD
          ((gia.findSome? (fun rs => specMatch fnm rs path)).getD false)) := by
  have hh : path.head? ≠ some 47 := by
    intro hcon
    rw [pyIsAbs, hcon] at hrel
    simp at hrel
  have hgo : check_ignore_scoped_go fnm gis path fuel (pyDirname path)
      = Except.ok ((parentChain fuel (pyDirname path)).findSome?
          (fun q => (dictFind gis q).bind (fun rs => specMatch fnm rs path))) := by
    by_cases hp : path = []
    · subst hp
      exact check_ignore_scoped_go_ok fnm gis [] fuel [] (by simpa using hfuel)
        (by simp)
    · obtain ⟨hdec, hdh⟩ := pyDirname_lt path hp hh
      exact check_ignore_scoped_go_ok fnm gis path fuel (pyDirname path)
        (by omega) hdh
  simp only [check_ignore, check_ignore_scoped]
  rw [if_neg (by rw [hrel]; exact Bool.false_ne_true)]
  rw [hgo]
  cases hs : (parentChain fuel (pyDirname path)).findSome?
      (fun q => (dictFind gis q).bind (fun rs => specMatch fnm rs path)) with
  | some r => rfl
  | none =>
    rw [check_ignore_absolute_ok]
    rfl

/-- Witness for C8: with a scope for directory a holding two rules matching
a slash b where the later rule clears the flag, the path a slash b is not
ignored even though an absolute list would ignore it. -/
theorem C8_check_ignore_witness :
    check_ignore (fun p q => p == q)
      ⟨[[([97, 47, 98], true)]], [([97], [([97, 47, 98], true), ([97, 47, 98], false)])]⟩
      4 [97, 47, 98]
    = Except.ok false := by
  have h := C8_check_ignore (fun p q => p == q) [[([97, 47, 98], true)]]
    [([97], [([97, 47, 98], true), ([97, 47, 98], false)])] [97, 47, 98] 4
    (by decide) (by decide)
  rw [h]
  rfl

end Wyag
